import Mathlib

/-!
# Verification of the `lshw -json` hardware-document materializer (`model/Lshw.py`)

This file is a shallow embedding of the core object model of the hardInfo
repository: the `Children` dispatcher, the per-class node constructors
(`Computer`, `Core`, `CPU`, ..., all sharing the same attribute-copy loop),
`System.integrityCheck`, `CPU_Capabilities`, and the `deepcopy` defensive copy.

JSON values are modelled by the mutually inductive `JVal`/`JList`/`JObj`
(arrays and objects as their own list types, so that the embedding of
Python `==` is structural and kernel-evaluable).  Python `dict`s are `JObj`
(association sequences, insertion-ordered, duplicate-free in every document
produced by `json.loads`).  Exceptions are modelled with `Except PyErr`.
The mutual recursion `Children.__init__` ↔ node constructors is driven by a
fuel parameter: one unit of fuel per tree level; `PyErr.outOfFuel` marks
exhaustion and is never confused with a genuine Python exception.
-/

set_option maxRecDepth 4000

namespace HardInfo

/-! ## JSON values (the shape produced by `json.loads` on `lshw -json` output) -/

mutual
/-- A Python value obtained from `json.loads`: `None`, `bool`, `int`, `str`,
`list`, or `dict`.  (The documents in scope contain no floats.) -/
inductive JVal where
  | null : JVal
  | bool (b : Bool) : JVal
  | num (n : Int) : JVal
  | str (s : String) : JVal
  | arr (l : JList) : JVal
  | obj (o : JObj) : JVal

/-- A Python list of JSON values. -/
inductive JList where
  | nil : JList
  | cons (v : JVal) (tl : JList) : JList

/-- A Python dict of JSON values: keys in insertion order. -/
inductive JObj where
  | nil : JObj
  | cons (k : String) (v : JVal) (tl : JObj) : JObj
end

/-- Build a `JList` from a Lean list (notation helper for concrete documents). -/
def listOf : List JVal → JList
  | [] => .nil
  | v :: t => .cons v (listOf t)

/-- Build a `JObj` from a Lean association list. -/
def objOf : List (String × JVal) → JObj
  | [] => .nil
  | (k, v) :: t => .cons k v (objOf t)

/-- The elements of a `JList` as a Lean list. -/
def JList.toList : JList → List JVal
  | .nil => []
  | .cons v t => v :: t.toList

/-- The entries of a `JObj` as a Lean association list. -/
def JObj.entries : JObj → List (String × JVal)
  | .nil => []
  | .cons k v t => (k, v) :: t.entries

/-- The keys of a dict, in order (Python `for name in d` / `d.keys()`). -/
def JObj.keys : JObj → List String
  | .nil => []
  | .cons k _ t => k :: t.keys

/-- Python `d[k]` / `k in d`: first matching entry (dicts have unique keys). -/
def JObj.lookup : JObj → String → Option JVal
  | .nil, _ => none
  | .cons k v t, key => if k == key then some v else t.lookup key

/-- Python `k in d` as a Bool. -/
def JObj.hasKey (o : JObj) (key : String) : Bool := (o.lookup key).isSome

/-- Python `isinstance(v, (list, tuple, dict))` is false: the copy loop in every
node constructor only promotes these scalar values to named fields. -/
def isScalar : JVal → Bool
  | .arr _ => false
  | .obj _ => false
  | _ => true

/-! ## Python `==` on these values

`jEq` embeds Python equality: `None == None`, numeric cross-equality
`True == 1` / `False == 0`, element-wise list equality, and order-insensitive
content equality for dicts. -/

mutual
/-- Python `==` on JSON-shaped values. -/
def jEq : JVal → JVal → Bool
  | .null, .null => true
  | .bool a, .bool b => a == b
  | .bool a, .num n => n == (if a then (1 : Int) else 0)
  | .num n, .bool b => n == (if b then (1 : Int) else 0)
  | .num a, .num b => a == b
  | .str a, .str b => a == b
  | .arr a, .arr b => jListEq a b
  | .obj a, .obj b => jObjSubEq a b && jObjKeysSub b a
  | _, _ => false

/-- Python `==` on lists: same length, elements equal pointwise. -/
def jListEq : JList → JList → Bool
  | .nil, .nil => true
  | .cons a as, .cons b bs => jEq a b && jListEq as bs
  | _, _ => false

/-- Every entry of the first dict is present in the second with `==` value. -/
def jObjSubEq : JObj → JObj → Bool
  | .nil, _ => true
  | .cons k v tl, b =>
      (match b.lookup k with
       | some w => jEq v w
       | none => false) && jObjSubEq tl b

/-- Every key of the first dict occurs in the second. -/
def jObjKeysSub : JObj → JObj → Bool
  | .nil, _ => true
  | .cons k _ tl, b => b.hasKey k && jObjKeysSub tl b
end

/-- Python `dict == dict`: mutual key inclusion with `==`-equal values. -/
def jObjEq (a b : JObj) : Bool := jObjSubEq a b && jObjKeysSub b a

/-- Python `x in someList` (used by `'id' in object` when a child is a list). -/
def jListMem : JList → JVal → Bool
  | .nil, _ => false
  | .cons v t, x => jEq x v || jListMem t x

/-- Substring test on character lists: the needle occurs as a contiguous run. -/
def containsRun : List Char → List Char → Bool
  | needle, [] => needle.isEmpty
  | needle, h :: t => needle.isPrefixOf (h :: t) || containsRun needle t

/-- Python `needle in hay` on strings: substring containment. -/
def strContains (hay needle : String) : Bool := containsRun needle.data hay.data

/-- Characters before the first `':'` (the whole string when no colon occurs),
as in `"cpu:0".split(':')[0]`. -/
def takeUntilColon : List Char → List Char
  | [] => []
  | c :: t => if c == ':' then [] else c :: takeUntilColon t

/-- The hardware-class head of an `id` string: `id.split(':')[0]`. -/
def idHead (s : String) : String := String.mk (takeUntilColon s.data)

/-! ## Hardware taxonomy (`HardwareId` enum and `System.idMap`) -/

/-- The `HardwareId` enumeration of `model/Lshw.py`. -/
inductive HardwareId where
  | Core | Firmware | CPU | Cache | Memory | Bank | PCI | Display
  | Communication | USB | UsbHost | MultiMedia | Generic | FireWire
  | Network | ISA | Storage | SCSI | Disk | Volume | LogicalVolume
  | CD_ROM | Medium | Battery
deriving DecidableEq, BEq, Repr

/-- The module-level dispatch table `System.idMap`: id-string head to
`HardwareId`; a head outside the table is a `KeyError` at lookup sites. -/
def idMap : String → Option HardwareId
  | "core" => some .Core
  | "firmware" => some .Firmware
  | "cpu" => some .CPU
  | "cache" => some .Cache
  | "memory" => some .Memory
  | "bank" => some .Bank
  | "pci" => some .PCI
  | "display" => some .Display
  | "communication" => some .Communication
  | "usb" => some .USB
  | "usbhost" => some .UsbHost
  | "multimedia" => some .MultiMedia
  | "generic" => some .Generic
  | "firewire" => some .FireWire
  | "network" => some .Network
  | "isa" => some .ISA
  | "storage" => some .Storage
  | "scsi" => some .SCSI
  | "disk" => some .Disk
  | "volume" => some .Volume
  | "logicalvolume" => some .LogicalVolume
  | "cdrom" => some .CD_ROM
  | "medium" => some .Medium
  | "battery" => some .Battery
  | _ => none

/-- The node classes of `model/Lshw.py` (one Python class per hardware type;
`Computer` is the root class, `Bridge` exists but is never dispatched to). -/
inductive NodeType where
  | Computer | Core | Firmware | CPU | Cache | Bank | PCI | Display
  | Communication | Network | USB | USBhost | Multimedia | Generic
  | FireWire | Bridge | ISA | Memory | Storage | SCSI | Disk | Volume
  | LogicalVolume | CD_ROM | Medium | Battery
deriving DecidableEq, BEq, Repr

/-- The constructor the `Children.__init__` if/elif chain invokes for each
`HardwareId`.  Note the source's line 304-305: the `HardwareId.FireWire`
branch appends a `Firmware` node, so the `FireWire` class is never chosen. -/
def constructorOf : HardwareId → NodeType
  | .Core => .Core
  | .Firmware => .Firmware
  | .CPU => .CPU
  | .Cache => .Cache
  | .Memory => .Memory
  | .Bank => .Bank
  | .PCI => .PCI
  | .Display => .Display
  | .Communication => .Communication
  | .USB => .USB
  | .UsbHost => .USBhost
  | .MultiMedia => .Multimedia
  | .Generic => .Generic
  | .FireWire => .Firmware
  | .Network => .Network
  | .ISA => .ISA
  | .Storage => .Storage
  | .SCSI => .SCSI
  | .Disk => .Disk
  | .Volume => .Volume
  | .LogicalVolume => .LogicalVolume
  | .CD_ROM => .CD_ROM
  | .Medium => .Medium
  | .Battery => .Battery

/-- The `self.<field> = None` declarations at the top of each node class'
constructor, in source order (`class` is declared as `class_`; note the
source typo `clained` in `Computer`, and that `Bridge` declares nothing). -/
def declaredFields : NodeType → List String
  | .Computer =>
      ["id", "class_", "clained", "handle", "description", "product",
       "vendor", "serial", "width"]
  | .Core =>
      ["id", "class_", "claimed", "handle", "description", "product",
       "vendor", "physid", "version", "serial"]
  | .Firmware =>
      ["id", "class_", "claimed", "description", "vendor", "physid",
       "version", "date", "units", "size", "capacity"]
  | .CPU =>
      ["id", "class_", "claimed", "handle", "description", "product",
       "vendor", "physid", "businfo", "version", "slot", "units", "size",
       "capacity", "width", "clock"]
  | .Cache =>
      ["id", "class_", "claimed", "handle", "description", "physid",
       "slot", "units", "size", "capacity"]
  | .Bank =>
      ["id", "class_", "claimed", "handle", "description", "product",
       "vendor", "physid", "serial", "slot", "units", "size", "width",
       "clock"]
  | .PCI =>
      ["id", "class_", "claimed", "handle", "description", "product",
       "vendor", "physid", "businfo", "version", "width", "clock"]
  | .Display =>
      ["id", "class_", "claimed", "handle", "description", "product",
       "vendor", "physid", "businfo", "version", "width", "clock"]
  | .Communication =>
      ["id", "class_", "claimed", "handle", "description", "product",
       "vendor", "physid", "businfo", "version", "width", "clock"]
  | .Network =>
      ["id", "class_", "claimed", "handle", "description", "product",
       "vendor", "physid", "businfo", "logicalname", "version", "serial",
       "units", "capacity", "width", "clock"]
  | .USB =>
      ["id", "class_", "claimed", "handle", "description", "product",
       "vendor", "physid", "businfo", "version", "width", "clock"]
  | .USBhost =>
      ["id", "class_", "claimed", "handle", "product", "vendor", "physid",
       "businfo", "logicalname", "version"]
  | .Multimedia =>
      ["id", "class_", "claimed", "handle", "description", "product",
       "vendor", "physid", "businfo", "version", "width", "clock"]
  | .Generic =>
      ["id", "class_", "claimed", "handle", "description", "product",
       "vendor", "physid", "businfo", "version", "width", "clock"]
  | .FireWire =>
      ["id", "class_", "claimed", "handle", "description", "product",
       "vendor", "physid", "businfo", "version", "width", "clock"]
  | .Bridge => []
  | .ISA =>
      ["id", "class_", "claimed", "handle", "description", "product",
       "vendor", "physid", "businfo", "version", "width", "clock"]
  | .Memory =>
      ["id", "class_", "claimed", "handle", "description", "physid",
       "slot", "units", "size"]
  | .Storage =>
      ["id", "class_", "claimed", "handle", "description", "product",
       "vendor", "physid", "businfo", "version", "width", "clock"]
  | .SCSI => ["id", "class_", "claimed", "physid", "logicalname"]
  | .Disk =>
      ["id", "class_", "claimed", "handle", "description", "product",
       "vendor", "physid", "businfo", "logicalname", "dev", "version",
       "serial", "units", "size"]
  | .Volume =>
      ["id", "class_", "claimed", "description", "physid", "businfo",
       "logicalname", "dev", "version", "serial", "size", "capacity"]
  | .LogicalVolume =>
      ["id", "class_", "claimed", "description", "vendor", "physid",
       "logicalname", "dev", "version", "serial", "size", "capacity"]
  | .CD_ROM =>
      ["id", "class_", "claimed", "handle", "description", "product",
       "vendor", "physid", "businfo", "logicalname", "dev", "version"]
  | .Medium => ["id", "class_", "claimed", "physid", "logicalname", "dev"]
  | .Battery =>
      ["id", "class_", "claimed", "handle", "product", "vendor", "physid",
       "slot", "units", "capacity"]

/-! ## CPU capability schema (`CPU_Capabilities`) -/

/-- The fixed schema field names `CPU_Capabilities.__init__` declares with
`self.<flag> = None`, in source order (the key `"x86-64"` is rewritten to
the identifier `x86_64` by the copy loop). -/
def cpuCapabilityFields : List String :=
  ["x86_64", "fpu", "fpu_exception", "wp", "vme", "de", "pse", "tsc",
   "msr", "pae", "mce", "cx8", "apic", "sep", "mtrr", "pge", "mca",
   "cmov", "pat", "pse36", "clflush", "dts", "acpi", "mmx", "fxsr",
   "sse", "sse2", "ss", "ht", "tm", "pbe", "syscall", "nx", "rdtscp",
   "constant_tsc", "arch_perfmon", "pebs", "bts", "rep_good", "nopl",
   "xtopology", "nonstop_tsc", "cpuid", "aperfmperf", "pni", "dtes64",
   "monitor", "ds_cpl", "vmx", "est", "tm2", "ssse3", "cx16", "xtpr",
   "pdcm", "pcid", "sse4_1", "sse4_2", "popcnt", "lahf_lm", "pti",
   "ssbd", "ibrs", "ibpb", "stibp", "tpr_shadow", "vnmi", "flexpriority",
   "ept", "vpid", "dtherm", "ida", "arat", "flush_l1d", "cpufreq"]

/-- Assignment into an attribute dictionary whose values are Python `None`
(`Option.none`) or a scalar: update in place if the name exists, else append
(Python attribute-assignment semantics on `__dict__`). -/
def capsSet : List (String × Option JVal) → String → Option JVal →
    List (String × Option JVal)
  | [], k, v => [(k, v)]
  | (k', v') :: t, k, v =>
      if k' == k then (k', v) :: t else (k', v') :: capsSet t k v

/-- Lookup in the capability wrapper's `__dict__`. -/
def capsGet : List (String × Option JVal) → String → Option (Option JVal)
  | [], _ => none
  | (k', v') :: t, k => if k' == k then some v' else capsGet t k

/-- The `for name, value in self.items()` copy loop of
`CPU_Capabilities.__init__`: scalar flags are assigned as attributes, with
`class` renamed to `class_` and `x86-64` to `x86_64`. -/
def cpuCapsLoop (fields : List (String × Option JVal)) :
    JObj → List (String × Option JVal)
  | .nil => fields
  | .cons k v tl =>
      cpuCapsLoop
        (if isScalar v then
          if k == "class" then capsSet fields "class_" (some v)
          else if k == "x86-64" then capsSet fields "x86_64" (some v)
          else capsSet fields k (some v)
        else fields) tl

/-- A materialized capabilities wrapper: `CPU_Capabilities` when the parent's
id head resolved to `HardwareId.CPU`, plain `Capabilities` otherwise.  Both
are `OrderedDict` subclasses retaining the full original mapping in
`content`; only `CPU_Capabilities` carries the named schema fields. -/
structure CapsObj where
  isCpu : Bool
  content : JObj
  fields : List (String × Option JVal)

/-- Construction of the capabilities wrapper from the raw mapping. -/
def mkCapsObj (isCpu : Bool) (content : JObj) : CapsObj :=
  if isCpu then
    ⟨true, content, cpuCapsLoop (cpuCapabilityFields.map (·, none)) content⟩
  else ⟨false, content, []⟩

/-! ## Node model (`System` and its per-class subclasses) -/

/-- Exceptions the materializer can raise.  `outOfFuel` is not a Python
error: it marks exhaustion of the recursion budget of the embedding. -/
inductive PyErr where
  | keyError (k : String)
  | typeError
  | attributeError
  | outOfFuel
deriving DecidableEq, Repr

/-- A value stored in a node's `__dict__`: the Python `None` the field
declarations assign, a scalar copied by the copy loop, the `attributes`
dict (`deepcopy` of the constructor input), or a `Configuration` /
`Capabilities` wrapper.  (The `Children` list object itself is kept as a
separate node field, see `Node`; `integrityCheck` filters the name
`children` before any `__dict__` lookup, and `Node.childrenAttr` accounts
for the copy loop's possible scalar overwrite of that attribute, so no
observable behaviour is lost.) -/
inductive DVal where
  | pynone
  | scalar (v : JVal)
  | attrsD (o : JObj)
  | config (o : JObj)
  | caps (c : CapsObj)

/-- Lookup in a `__dict__` (first match; keys are unique). -/
def dictGet : List (String × DVal) → String → Option DVal
  | [], _ => none
  | (k', v') :: t, k => if k' == k then some v' else dictGet t k

/-- Python attribute assignment on a `__dict__`: overwrite in place if the
name exists, else append in insertion order. -/
def dictSet : List (String × DVal) → String → DVal → List (String × DVal)
  | [], k, v => [(k, v)]
  | (k', v') :: t, k, v =>
      if k' == k then (k', v) :: t else (k', v') :: dictSet t k v

mutual
/-- A materialized hardware node: the Python class chosen by the dispatcher,
the `deepcopy`-ed raw attributes, the `__dict__` after the copy loop, the
`Children` list object (`self.children`), and the stored result of the
constructor-time `integrityCheck` (`self.errorCount`, `self.errors`). -/
inductive Node where
  | mk (type : NodeType) (attributes : JObj) (dict : List (String × DVal))
       (children : List ChildItem) (errorCount : Nat)
       (errors : List (String × JVal × DVal)) : Node

/-- An element of a `Children` list object.  `Children` subclasses `list`
and is initialized with the raw child payloads (`list.__init__(self,
children)`), after which the dispatch loop appends the typed nodes — so raw
items and nodes coexist in one list. -/
inductive ChildItem where
  | raw (v : JVal) : ChildItem
  | node (n : Node) : ChildItem
end

/-- The Python class of a node. -/
def Node.type : Node → NodeType
  | .mk t _ _ _ _ _ => t

/-- The raw attributes mapping (`self.attributes` as constructed; see
`Node.getAttributesSlot` for what instance-attribute lookup would return). -/
def Node.attributes : Node → JObj
  | .mk _ a _ _ _ _ => a

/-- The node's `__dict__` (without the `children` entry, kept separately). -/
def Node.dict : Node → List (String × DVal)
  | .mk _ _ d _ _ _ => d

/-- The `Children` list object `System.__init__` stored as `self.children`
(see `Node.childrenAttr` for what attribute lookup returns after the copy
loop, which can overwrite this slot with a scalar). -/
def Node.children : Node → List ChildItem
  | .mk _ _ _ c _ _ => c

/-- The stored `self.errorCount` from the constructor-time integrity check. -/
def Node.errorCount : Node → Nat
  | .mk _ _ _ _ e _ => e

/-- The stored `self.errors` from the constructor-time integrity check. -/
def Node.errors : Node → List (String × JVal × DVal)
  | .mk _ _ _ _ _ e => e

/-- What Python attribute lookup `self.attributes` yields: the `__dict__`
entry under the name `attributes` (the copy loop can overwrite it). -/
def Node.getAttributesSlot (n : Node) : Option DVal := dictGet n.dict "attributes"

/-- What Python attribute lookup `self.children` yields after construction:
the copy loop's write wins when the raw `children` value was a scalar
(it runs after `System.__init__` and assigns every scalar key, `children`
included); otherwise the `Children` list object set by `System.__init__`.
In the model the loop's write is the dict entry under `children` — absent
from `nodeDict0`, so present exactly when the loop wrote it. -/
def Node.childrenAttr (n : Node) : JVal ⊕ List ChildItem :=
  match dictGet n.dict "children" with
  | some (.scalar v) => .inl v
  | _ => .inr n.children

/-- The accessor `getAttribute` shared by every node class:
`if isinstance(name, str) and name in self.attributes: return
self.attributes[name]; return None`.  For every successfully constructed
node the `attributes` slot holds the raw dict (a scalar overwrite of the
slot makes the constructor raise first), so the dict branch is the only
reachable one. -/
def Node.getAttribute (n : Node) (name : String) : Option JVal :=
  match dictGet n.dict "attributes" with
  | some (.attrsD o) => o.lookup name
  | _ => none

/-- The `for name, value in self.attributes.items()` copy loop shared by
every node constructor: each scalar value is assigned as an instance
attribute under its own key, with `class` rewritten to `class_`. -/
def copyLoop (d : List (String × DVal)) : JObj → List (String × DVal)
  | .nil => d
  | .cons k v tl =>
      copyLoop
        (if isScalar v then
          if k == "class" then dictSet d "class_" (.scalar v)
          else dictSet d k (.scalar v)
        else d) tl

/-- Python `==` between a `__dict__` value and a raw attribute value, as
`System.integrityCheck` performs it (`value != self.__dict__[name]`):
`None` equals only JSON null; wrappers are `OrderedDict`s and compare by
content against raw dicts. -/
def pyEqDJ : DVal → JVal → Bool
  | .pynone, .null => true
  | .pynone, _ => false
  | .scalar w, v => jEq w v
  | .attrsD o, .obj m => jObjEq o m
  | .attrsD _, _ => false
  | .config o, .obj m => jObjEq o m
  | .config _, _ => false
  | .caps c, .obj m => jObjEq c.content m
  | .caps _, _ => false

/-- The `.items()` view `integrityCheck` iterates: dicts and `OrderedDict`
wrappers have one, a scalar or `None` in the `attributes` slot raises
`AttributeError`. -/
def itemsOfDVal : DVal → Option JObj
  | .attrsD o => some o
  | .config o => some o
  | .caps c => some c.content
  | .scalar _ => none
  | .pynone => none

/-- The comparison loop of `System.integrityCheck`: for every raw entry
except `children` and `logicalname` (lists in lshw output, excluded by
name), look up the instance attribute (`class` under `class_`) — a missing
attribute is a fatal `KeyError` — and count mismatches. -/
def icLoop (d : List (String × DVal)) :
    JObj → Nat → List (String × JVal × DVal) →
    Except PyErr (Nat × List (String × JVal × DVal))
  | .nil, cnt, errs => .ok (cnt, errs)
  | .cons name value tl, cnt, errs =>
      if name == "children" || name == "logicalname" then
        icLoop d tl cnt errs
      else
        let name' := if name == "class" then "class_" else name
        match dictGet d name' with
        | none => .error (.keyError name')
        | some dv =>
            if pyEqDJ dv value then icLoop d tl cnt errs
            else icLoop d tl (cnt + 1) (errs ++ [(name', value, dv)])

/-- `System.integrityCheck` over a node `__dict__`: iterate the items of
`self.__dict__['attributes']` when present (an `.items()` call on a scalar
overwrite raises `AttributeError`), else report zero errors. -/
def integrityCheckDict (d : List (String × DVal)) :
    Except PyErr (Nat × List (String × JVal × DVal)) :=
  match dictGet d "attributes" with
  | none => .ok (0, [])
  | some dv =>
      match itemsOfDVal dv with
      | none => .error .attributeError
      | some o => icLoop d o 0 []

/-- The `__dict__` entry for the `configuration` / `capabilities` arguments
set by `System.__init__` (the dispatcher passes `None` when the key is
absent). -/
def cfgDVal : Option JObj → DVal
  | none => .pynone
  | some o => .config o

/-- See `cfgDVal`. -/
def capsDVal : Option CapsObj → DVal
  | none => .pynone
  | some c => .caps c

/-- The node `__dict__` before the copy loop runs: `System.__init__` has
set `configuration` and `capabilities` (`None` when absent), the
constructor has set `self.attributes = deepcopy(attributes)` and declared
the class' named fields as `None`.  (`self.children` is modelled as a
separate node field; `integrityCheck` filters that name.) -/
def nodeDict0 (t : NodeType) (cfg : Option JObj) (caps : Option CapsObj)
    (attrs : JObj) : List (String × DVal) :=
  ("configuration", cfgDVal cfg) :: ("capabilities", capsDVal caps) ::
  ("attributes", .attrsD attrs) :: (declaredFields t).map (·, DVal.pynone)

/-- The shared body of every per-class node constructor, parameterized by
the recursive `Children` constructor `mkCh` (applied to the raw value of
the `children` key): wrap children, build the initial `__dict__`, run the
copy loop, then run `integrityCheck` and store its result
(`self.errorCount, self.errors = self.integrityCheck()`); an exception in
the check aborts construction. -/
def mkNodeCore (mkCh : Option JVal → Except PyErr (List ChildItem))
    (t : NodeType) (attrs : JObj) (cfg : Option JObj) (caps : Option CapsObj)
    (chRaw : Option JVal) : Except PyErr Node := do
  let ch ← mkCh chRaw
  let d1 := copyLoop (nodeDict0 t cfg caps attrs) attrs
  match integrityCheckDict d1 with
  | .error e => .error e
  | .ok (cnt, errs) => .ok (.mk t attrs d1 ch cnt errs)

/-- The contents `list.__init__(self, children)` gives the `Children` list,
which the dispatch loop then iterates: a list yields its elements, a string
its one-character substrings, a dict its keys; other values are not
iterable (`TypeError`).  (`None` is intercepted earlier by `children ==
None`.) -/
def listifyChildren : JVal → Except PyErr (List JVal)
  | .arr l => .ok l.toList
  | .str s => .ok (s.data.map fun c => JVal.str (String.singleton c))
  | .obj m => .ok (m.keys.map JVal.str)
  | _ => .error .typeError

/-- One iteration of the `Children.__init__` dispatch loop, parameterized by
the recursive `Children` constructor.  For a dict with an `id` key: split
the id, wrap `configuration` and `capabilities` (the `capabilities` branch
performs the first `System.idMap` lookup — a `KeyError` for an unknown
head), extract the raw `children` value, then dispatch through the if/elif
chain (the second `idMap` lookup) to a node constructor.  A dict without
`id` is skipped.  For non-dict items, `'id' in object` is a substring /
membership test or a `TypeError`. -/
def processChildAux (mkCh : Option JVal → Except PyErr (List ChildItem)) :
    JVal → Except PyErr (Option Node)
  | .obj m =>
      match m.lookup "id" with
      | none => .ok none
      | some (.str s) => do
          let hd := idHead s
          let cfg ← match m.lookup "configuration" with
            | none => pure none
            | some (.obj o) => pure (some o)
            | some _ => .error .typeError
          let caps ← match m.lookup "capabilities" with
            | none => pure none
            | some cv =>
                match idMap hd with
                | none => .error (.keyError hd)
                | some hid =>
                    match cv with
                    | .obj o => pure (some (mkCapsObj (hid == .CPU) o))
                    | _ => .error .typeError
          let chRaw := m.lookup "children"
          match idMap hd with
          | none => .error (.keyError hd)
          | some hid => do
              let n ← mkNodeCore mkCh (constructorOf hid) m cfg caps chRaw
              pure (some n)
      | some _ => .error .attributeError
  | .str s => if strContains s "id" then .error .typeError else .ok none
  | .arr l => if jListMem l (.str "id") then .error .typeError else .ok none
  | _ => .error .typeError

/-- The dispatch loop over the `Children` items, collecting the appended
typed nodes in order. -/
def processItemsAux (mkCh : Option JVal → Except PyErr (List ChildItem)) :
    List JVal → Except PyErr (List ChildItem)
  | [] => .ok []
  | it :: tl => do
      let n? ← processChildAux mkCh it
      let rest ← processItemsAux mkCh tl
      match n? with
      | some n => .ok (.node n :: rest)
      | none => .ok rest

/-- `Children.__init__`, with a fuel budget of one unit per tree level:
`Children(None)` (and JSON null, which `json.loads` maps to `None`) is the
empty list; otherwise the list is initialized with the raw items and the
dispatch loop appends one typed node per dict item with an `id` key. -/
def mkChildren : Nat → Option JVal → Except PyErr (List ChildItem)
  | 0, _ => .error .outOfFuel
  | fuel + 1, chOpt =>
      match chOpt with
      | none => .ok []
      | some .null => .ok []
      | some v => do
          let items ← listifyChildren v
          let nodes ← processItemsAux (mkChildren fuel) items
          .ok (items.map .raw ++ nodes)

/-- One dispatch-loop iteration at a given fuel. -/
def processChild (fuel : Nat) : JVal → Except PyErr (Option Node) :=
  processChildAux (mkChildren fuel)

/-- A per-class node constructor at a given fuel (its `Children(children)`
call consumes the fuel). -/
def mkNode (fuel : Nat) (t : NodeType) (attrs : JObj) (cfg : Option JObj)
    (caps : Option CapsObj) (chRaw : Option JVal) : Except PyErr Node :=
  mkNodeCore (mkChildren fuel) t attrs cfg caps chRaw

/-! ## Well-formedness: documents produced by `json.loads`

Python dicts cannot hold two entries with the same key, so every document
`json.loads` hands the materializer has duplicate-free keys at every level.
`wfJ` captures exactly that. -/

/-- Boolean key-uniqueness of one dict level. -/
def keysUniq : JObj → Bool
  | .nil => true
  | .cons k _ t => !(t.hasKey k) && keysUniq t

mutual
/-- Every dict nested in the value has duplicate-free keys. -/
def wfJ : JVal → Bool
  | .arr l => wfL l
  | .obj o => keysUniq o && wfO o
  | _ => true

/-- See `wfJ`. -/
def wfL : JList → Bool
  | .nil => true
  | .cons v t => wfJ v && wfL t

/-- See `wfJ`. -/
def wfO : JObj → Bool
  | .nil => true
  | .cons _ v t => wfJ v && wfO t
end

/-! ## Basic lemmas about the embedded dict operations -/

theorem dictGet_dictSet_eq (d : List (String × DVal)) (k : String) (v : DVal) :
    dictGet (dictSet d k v) k = some v := by
  induction d with
  | nil => simp [dictSet, dictGet]
  | cons hd tl ih =>
      by_cases h : hd.1 == k
      · simp [dictSet, dictGet, h]
      · simpa [dictSet, dictGet, h] using ih

theorem dictGet_dictSet_ne (d : List (String × DVal)) (k k' : String) (v : DVal)
    (h : (k' == k) = false) : dictGet (dictSet d k' v) k = dictGet d k := by
  induction d with
  | nil => simp [dictSet, dictGet, h]
  | cons hd tl ih =>
      by_cases h2 : hd.1 == k'
      · have he : hd.1 = k' := by simpa using h2
        simp [dictSet, dictGet, h2, he, h]
      · by_cases h3 : hd.1 == k
        · simp [dictSet, dictGet, h2, h3]
        · simpa [dictSet, dictGet, h2, h3] using ih

/-- Keys the copy loop assigns while processing a raw dict: one per scalar
entry, with `class` rewritten to `class_`. -/
def writesKey : JObj → String → Bool
  | .nil, _ => false
  | .cons k' v tl, k =>
      (isScalar v && ((if k' == "class" then "class_" else k') == k)) ||
      writesKey tl k

theorem copyLoop_get_of_not_writes :
    ∀ (o : JObj) (k : String) (d : List (String × DVal)),
      writesKey o k = false → dictGet (copyLoop d o) k = dictGet d k
  | .nil, _, _, _ => rfl
  | .cons k' v tl, k, d, h => by
      simp only [writesKey, Bool.or_eq_false_iff, Bool.and_eq_false_iff] at h
      obtain ⟨h1, h2⟩ := h
      by_cases hs : isScalar v
      · have h1' : ((if k' == "class" then "class_" else k') == k) = false := by
          rcases h1 with h1 | h1
          · simp [hs] at h1
          · exact h1
        by_cases hc : k' == "class"
        · simp only [copyLoop, if_pos hs, if_pos hc]
          rw [copyLoop_get_of_not_writes tl k _ h2, dictGet_dictSet_ne]
          simpa [hc] using h1'
        · simp only [copyLoop, if_pos hs, if_neg hc]
          rw [copyLoop_get_of_not_writes tl k _ h2, dictGet_dictSet_ne]
          simpa [hc] using h1'
      · simp only [copyLoop, if_neg hs]
        exact copyLoop_get_of_not_writes tl k d h2

theorem writesKey_false_of_no_key :
    ∀ (o : JObj) (k : String), o.hasKey k = false → k ≠ "class_" →
      writesKey o k = false
  | .nil, _, _, _ => rfl
  | .cons k' v tl, k, hk, hcl => by
      simp only [JObj.hasKey, JObj.lookup] at hk
      by_cases h : k' == k
      · rw [if_pos h] at hk
        exact absurd hk (by simp)
      · rw [if_neg h] at hk
        have htl : tl.hasKey k = false := hk
        simp only [writesKey, writesKey_false_of_no_key tl k htl hcl,
          Bool.or_false, Bool.and_eq_false_iff]
        by_cases hc : k' == "class"
        · right
          simp only [if_pos hc]
          simp only [beq_eq_false_iff_ne, ne_eq]
          exact fun hcontra => hcl hcontra.symm
        · right
          simp only [if_neg hc, beq_eq_false_iff_ne, ne_eq]
          simpa using h

theorem hasKey_of_mem_entries :
    ∀ (o : JObj) (k : String) (v : JVal), (k, v) ∈ o.entries →
      o.hasKey k = true
  | .nil, _, _, h => by simp [JObj.entries] at h
  | .cons k' v' tl, k, v, h => by
      simp only [JObj.entries, List.mem_cons] at h
      rcases h with h | h
      · have h1 : k = k' := congrArg Prod.fst h
        simp [JObj.hasKey, JObj.lookup, h1]
      · by_cases hk : k' == k
        · simp [JObj.hasKey, JObj.lookup, hk]
        · have := hasKey_of_mem_entries tl k v h
          simpa [JObj.hasKey, JObj.lookup, hk] using this

theorem lookup_of_mem_entries_uniq :
    ∀ (o : JObj) (k : String) (v : JVal), keysUniq o = true →
      (k, v) ∈ o.entries → o.lookup k = some v
  | .nil, _, _, _, h => by simp [JObj.entries] at h
  | .cons k' v' tl, k, v, hu, h => by
      simp only [keysUniq, Bool.and_eq_true, Bool.not_eq_true'] at hu
      obtain ⟨hu1, hu2⟩ := hu
      simp only [JObj.entries, List.mem_cons] at h
      rcases h with h | h
      · have h1 : k = k' := congrArg Prod.fst h
        have h2 : v = v' := congrArg Prod.snd h
        simp [JObj.lookup, h1, h2]
      · have htl := lookup_of_mem_entries_uniq tl k v hu2 h
        by_cases hk : k' == k
        · have hin : tl.hasKey k = true := hasKey_of_mem_entries tl k v h
          have hke : k' = k := by simpa using hk
          rw [hke] at hu1
          rw [hu1] at hin
          exact absurd hin (by simp)
        · simpa [JObj.lookup, hk] using htl

/-- One scalar entry of the raw dict (key neither `class` nor `class_`) ends
up in the `__dict__` under its own name after the copy loop. -/
theorem copyLoop_get_scalar :
    ∀ (o : JObj) (d : List (String × DVal)) (k : String) (v : JVal),
      keysUniq o = true → (k, v) ∈ o.entries → isScalar v = true →
      (k == "class") = false → (k == "class_") = false →
      dictGet (copyLoop d o) k = some (.scalar v)
  | .nil, _, _, _, _, h, _, _, _ => by simp [JObj.entries] at h
  | .cons k' v' tl, d, k, v, hu, hmem, hs, hc, hcu => by
      simp only [keysUniq, Bool.and_eq_true, Bool.not_eq_true'] at hu
      obtain ⟨hu1, hu2⟩ := hu
      simp only [JObj.entries, List.mem_cons] at hmem
      rcases hmem with hmem | hmem
      · have h1 : k = k' := congrArg Prod.fst hmem
        have h2 : v = v' := congrArg Prod.snd hmem
        subst h1; subst h2
        have hstep : copyLoop d (.cons k v tl) =
            copyLoop (dictSet d k (.scalar v)) tl := by
          simp [copyLoop, hs, hc]
        rw [hstep, copyLoop_get_of_not_writes tl k _
          (writesKey_false_of_no_key tl k hu1 (by simpa using hcu))]
        exact dictGet_dictSet_eq d k (.scalar v)
      · have ih := fun d => copyLoop_get_scalar tl d k v hu2 hmem hs hc hcu
        by_cases hs' : isScalar v'
        · by_cases hc' : k' == "class"
          · have hstep : copyLoop d (.cons k' v' tl) =
                copyLoop (dictSet d "class_" (.scalar v')) tl := by
              simp [copyLoop, hs', hc']
            rw [hstep]; exact ih _
          · have hstep : copyLoop d (.cons k' v' tl) =
                copyLoop (dictSet d k' (.scalar v')) tl := by
              simp [copyLoop, hs', hc']
            rw [hstep]; exact ih _
        · have hstep : copyLoop d (.cons k' v' tl) = copyLoop d tl := by
            simp [copyLoop, hs']
          rw [hstep]; exact ih d

/-- No entry of the raw dict writes the `class_` slot when neither a
(second) `class` entry nor a `class_` key occurs further on. -/
theorem writesKey_classu_false :
    ∀ (o : JObj), o.hasKey "class" = false → o.hasKey "class_" = false →
      writesKey o "class_" = false
  | .nil, _, _ => rfl
  | .cons k' v tl, hk, hku => by
      simp only [JObj.hasKey, JObj.lookup] at hk hku
      by_cases h1 : k' == "class"
      · rw [if_pos h1] at hk
        exact absurd hk (by simp)
      · rw [if_neg h1] at hk
        by_cases h2 : k' == "class_"
        · rw [if_pos h2] at hku
          exact absurd hku (by simp)
        · rw [if_neg h2] at hku
          simp only [writesKey, writesKey_classu_false tl hk hku, Bool.or_false,
            Bool.and_eq_false_iff]
          right
          simp only [if_neg h1]
          simpa using h2

/-- A scalar `class` entry lands in the `__dict__` under `class_`. -/
theorem copyLoop_get_class :
    ∀ (o : JObj) (d : List (String × DVal)) (v : JVal),
      keysUniq o = true → ("class", v) ∈ o.entries → isScalar v = true →
      o.hasKey "class_" = false →
      dictGet (copyLoop d o) "class_" = some (.scalar v)
  | .nil, _, _, _, h, _, _ => by simp [JObj.entries] at h
  | .cons k' v' tl, d, v, hu, hmem, hs, hcu => by
      simp only [keysUniq, Bool.and_eq_true, Bool.not_eq_true'] at hu
      obtain ⟨hu1, hu2⟩ := hu
      simp only [JObj.hasKey, JObj.lookup] at hcu
      have hk'cu : (k' == "class_") = false := by
        by_cases h : k' == "class_"
        · rw [if_pos h] at hcu; exact absurd hcu (by simp)
        · exact eq_false_of_ne_true h
      rw [if_neg (by simp [hk'cu] : ¬(k' == "class_") = true)] at hcu
      simp only [JObj.entries, List.mem_cons] at hmem
      rcases hmem with hmem | hmem
      · have h1 : "class" = k' := congrArg Prod.fst hmem
        have h2 : v = v' := congrArg Prod.snd hmem
        subst h2
        have hk'c : (k' == "class") = true := by simp [h1.symm]
        have hstep : copyLoop d (.cons k' v tl) =
            copyLoop (dictSet d "class_" (.scalar v)) tl := by
          simp [copyLoop, hs, hk'c]
        have hclass : tl.hasKey "class" = false := h1 ▸ hu1
        rw [hstep, copyLoop_get_of_not_writes tl _ _
          (writesKey_classu_false tl hclass hcu)]
        exact dictGet_dictSet_eq d _ _
      · have ih := fun d => copyLoop_get_class tl d v hu2 hmem hs hcu
        by_cases hs' : isScalar v'
        · by_cases hc' : k' == "class"
          · have hstep : copyLoop d (.cons k' v' tl) =
                copyLoop (dictSet d "class_" (.scalar v')) tl := by
              simp [copyLoop, hs', hc']
            rw [hstep]; exact ih _
          · have hstep : copyLoop d (.cons k' v' tl) =
                copyLoop (dictSet d k' (.scalar v')) tl := by
              simp [copyLoop, hs', hc']
            rw [hstep]; exact ih _
        · have hstep : copyLoop d (.cons k' v' tl) = copyLoop d tl := by
            simp [copyLoop, hs']
          rw [hstep]; exact ih d

/-! ## Reflexivity of the Python-equality embedding (on `json.loads` output) -/

theorem hasKey_of_mem_keys :
    ∀ (o : JObj) (k : String), k ∈ o.keys → o.hasKey k = true
  | .nil, _, h => by simp [JObj.keys] at h
  | .cons k' v' tl, k, h => by
      simp only [JObj.keys, List.mem_cons] at h
      rcases h with h | h
      · simp [JObj.hasKey, JObj.lookup, h]
      · by_cases hk : k' == k
        · simp [JObj.hasKey, JObj.lookup, hk]
        · have := hasKey_of_mem_keys tl k h
          simpa [JObj.hasKey, JObj.lookup, hk] using this

theorem jObjKeysSub_into :
    ∀ (a o : JObj), (∀ k, k ∈ a.keys → o.hasKey k = true) →
      jObjKeysSub a o = true
  | .nil, _, _ => rfl
  | .cons k v tl, o, h => by
      simp only [jObjKeysSub, Bool.and_eq_true]
      exact ⟨h k (by simp [JObj.keys]),
        jObjKeysSub_into tl o fun k' hk' => h k' (by simp [JObj.keys, hk'])⟩

theorem wfJ_of_mem_entries :
    ∀ (o : JObj) (k : String) (v : JVal), wfO o = true →
      (k, v) ∈ o.entries → wfJ v = true
  | .nil, _, _, _, h => by simp [JObj.entries] at h
  | .cons k' v' tl, k, v, hw, h => by
      simp only [wfO, Bool.and_eq_true] at hw
      simp only [JObj.entries, List.mem_cons] at h
      rcases h with h | h
      · have h2 : v = v' := congrArg Prod.snd h
        rw [h2]; exact hw.1
      · exact wfJ_of_mem_entries tl k v hw.2 h

mutual
theorem jEq_refl : ∀ v : JVal, wfJ v = true → jEq v v = true
  | .null, _ => rfl
  | .bool b, _ => by simp [jEq]
  | .num n, _ => by simp [jEq]
  | .str s, _ => by simp [jEq]
  | .arr l, h => by
      simp only [jEq]
      exact jListEq_refl l (by simpa [wfJ] using h)
  | .obj o, h => by
      simp only [wfJ, Bool.and_eq_true] at h
      simp only [jEq, Bool.and_eq_true]
      refine ⟨jObjSubEq_into_self o o h.2 ?_, jObjKeysSub_into o o
        fun k hk => hasKey_of_mem_keys o k hk⟩
      exact fun k v hm => lookup_of_mem_entries_uniq o k v h.1 hm

theorem jListEq_refl : ∀ l : JList, wfL l = true → jListEq l l = true
  | .nil, _ => rfl
  | .cons v t, h => by
      simp only [wfL, Bool.and_eq_true] at h
      simp only [jListEq, Bool.and_eq_true]
      exact ⟨jEq_refl v h.1, jListEq_refl t h.2⟩

theorem jObjSubEq_into_self :
    ∀ (a o : JObj), wfO a = true →
      (∀ k v, (k, v) ∈ a.entries → o.lookup k = some v) →
      jObjSubEq a o = true
  | .nil, _, _, _ => rfl
  | .cons k v tl, o, hw, hmem => by
      simp only [wfO, Bool.and_eq_true] at hw
      simp only [jObjSubEq, Bool.and_eq_true]
      constructor
      · rw [hmem k v (by simp [JObj.entries])]
        exact jEq_refl v hw.1
      · exact jObjSubEq_into_self tl o hw.2
          fun k' v' hm => hmem k' v' (by simp [JObj.entries, hm])
end

/-- Python `==` between a dict from `json.loads` and itself. -/
theorem jObjEq_refl (o : JObj) (hu : keysUniq o = true) (hw : wfO o = true) :
    jObjEq o o = true := by
  simp only [jObjEq, Bool.and_eq_true]
  exact ⟨jObjSubEq_into_self o o hw
      (fun k v hm => lookup_of_mem_entries_uniq o k v hu hm),
    jObjKeysSub_into o o fun k hk => hasKey_of_mem_keys o k hk⟩

/-- Python `==` is reflexive on scalars without any well-formedness demand. -/
theorem jEq_refl_scalar : ∀ v : JVal, isScalar v = true → jEq v v = true
  | .null, _ => rfl
  | .bool b, _ => by simp [jEq]
  | .num n, _ => by simp [jEq]
  | .str s, _ => by simp [jEq]

/-- After the copy loop a slot either keeps its pre-loop value or was
overwritten with a scalar (the loop assigns nothing else). -/
theorem copyLoop_get_shape :
    ∀ (o : JObj) (d : List (String × DVal)) (k : String),
      dictGet (copyLoop d o) k = dictGet d k ∨
      ∃ v, dictGet (copyLoop d o) k = some (.scalar v)
  | .nil, _, _ => .inl rfl
  | .cons k' v' tl, d, k => by
      by_cases hs : isScalar v'
      · set kk := if k' == "class" then "class_" else k' with hkk
        have hstep : copyLoop d (.cons k' v' tl) =
            copyLoop (dictSet d kk (.scalar v')) tl := by
          by_cases hc : k' == "class" <;>
            simp [copyLoop, hs, hkk, hc]
        rw [hstep]
        rcases copyLoop_get_shape tl (dictSet d kk (.scalar v')) k with h | h
        · by_cases he : kk == k
          · right
            refine ⟨v', ?_⟩
            rw [h]
            have : kk = k := by simpa using he
            rw [← this]
            exact dictGet_dictSet_eq d kk (.scalar v')
          · left
            rw [h]
            exact dictGet_dictSet_ne d k kk (.scalar v') (eq_false_of_ne_true he)
        · exact .inr h
      · have hstep : copyLoop d (.cons k' v' tl) = copyLoop d tl := by
          simp [copyLoop, hs]
        rw [hstep]
        exact copyLoop_get_shape tl d k

/-! ## Lemmas about the integrity check and the constructor body -/

/-- The comparison loop succeeds and counts nothing when every inspected
raw entry matches its `__dict__` slot. -/
theorem icLoop_ok_of_match :
    ∀ (o : JObj) (d : List (String × DVal)) (cnt : Nat)
      (errs : List (String × JVal × DVal)),
      (∀ k v, (k, v) ∈ o.entries → (k == "children") = false →
        (k == "logicalname") = false →
        ∃ dv, dictGet d (if k == "class" then "class_" else k) = some dv ∧
          pyEqDJ dv v = true) →
      icLoop d o cnt errs = .ok (cnt, errs)
  | .nil, _, _, _, _ => rfl
  | .cons name value tl, d, cnt, errs, h => by
      have htl := icLoop_ok_of_match tl d cnt errs
        (fun k v hm hc hl => h k v (by simp [JObj.entries, hm]) hc hl)
      by_cases hskip : (name == "children" || name == "logicalname") = true
      · simp only [icLoop, hskip, if_pos rfl]
        exact htl
      · have hc : (name == "children") = false := by
          rcases Bool.or_eq_false_iff.mp (eq_false_of_ne_true hskip) with ⟨a, _⟩
          exact a
        have hl : (name == "logicalname") = false := by
          rcases Bool.or_eq_false_iff.mp (eq_false_of_ne_true hskip) with ⟨_, b⟩
          exact b
        obtain ⟨dv, hdv, hpy⟩ := h name value (by simp [JObj.entries]) hc hl
        have hcond : (name == "children" || name == "logicalname") = false := by
          rw [hc, hl]; rfl
        simp only [icLoop, hcond, Bool.false_eq_true, if_false]
        rw [hdv]
        simp only [hpy, if_true]
        exact htl

/-- Destruction of a successful constructor run: children succeeded, the
integrity check passed, and the node's stored fields are exactly the
constructor's intermediates. -/
theorem mkNodeCore_ok_destruct
    (mkCh : Option JVal → Except PyErr (List ChildItem))
    (t : NodeType) (attrs : JObj) (cfg : Option JObj) (caps : Option CapsObj)
    (chRaw : Option JVal) (n : Node)
    (h : mkNodeCore mkCh t attrs cfg caps chRaw = .ok n) :
    ∃ ch cnt errs, mkCh chRaw = .ok ch ∧
      integrityCheckDict (copyLoop (nodeDict0 t cfg caps attrs) attrs) =
        .ok (cnt, errs) ∧
      n = .mk t attrs (copyLoop (nodeDict0 t cfg caps attrs) attrs) ch cnt errs := by
  unfold mkNodeCore at h
  cases hch : mkCh chRaw with
  | error e => rw [hch] at h; exact absurd h (by simp [Bind.bind, Except.bind])
  | ok ch =>
      rw [hch] at h
      simp only [Bind.bind, Except.bind] at h
      cases hic : integrityCheckDict (copyLoop (nodeDict0 t cfg caps attrs) attrs) with
      | error e => rw [hic] at h; exact absurd h (by simp)
      | ok pr =>
          rw [hic] at h
          simp only at h
          obtain ⟨cnt, errs⟩ := pr
          refine ⟨ch, cnt, errs, rfl, rfl, ?_⟩
          simp only at h
          injection h with h
          exact h.symm

/-- See `mkNodeCore_ok_destruct`. -/
theorem mkNode_ok_destruct (fuel : Nat) (t : NodeType) (attrs : JObj)
    (cfg : Option JObj) (caps : Option CapsObj) (chRaw : Option JVal)
    (n : Node) (h : mkNode fuel t attrs cfg caps chRaw = .ok n) :
    ∃ ch cnt errs, mkChildren fuel chRaw = .ok ch ∧
      integrityCheckDict (copyLoop (nodeDict0 t cfg caps attrs) attrs) =
        .ok (cnt, errs) ∧
      n = .mk t attrs (copyLoop (nodeDict0 t cfg caps attrs) attrs) ch cnt errs :=
  mkNodeCore_ok_destruct (mkChildren fuel) t attrs cfg caps chRaw n h

/-- For any successfully constructed node the `attributes` slot still holds
the raw dict: had the copy loop overwritten it with a scalar, the
constructor-time `integrityCheck` would have raised `AttributeError` on the
`.items()` call and construction would have failed. -/
theorem mkNode_ok_attributes_slot (fuel : Nat) (t : NodeType) (attrs : JObj)
    (cfg : Option JObj) (caps : Option CapsObj) (chRaw : Option JVal)
    (n : Node) (h : mkNode fuel t attrs cfg caps chRaw = .ok n) :
    n.type = t ∧ n.attributes = attrs ∧
      dictGet n.dict "attributes" = some (.attrsD attrs) := by
  obtain ⟨ch, cnt, errs, _, hic, hn⟩ :=
    mkNode_ok_destruct fuel t attrs cfg caps chRaw n h
  subst hn
  refine ⟨rfl, rfl, ?_⟩
  simp only [Node.dict]
  rcases copyLoop_get_shape attrs (nodeDict0 t cfg caps attrs) "attributes" with
    hsh | ⟨v, hsh⟩
  · rw [hsh]
    rfl
  · simp only [integrityCheckDict, hsh, itemsOfDVal] at hic
    exact absurd hic (by simp)

/-! ## Claim C2: `getAttribute` round-trips the raw document -/

/-- **C2.** For every node materialized by a constructor: the `attributes`
slot of the node holds the raw dict it was built from, `getAttribute f`
returns exactly the raw entry when `f` is present (in particular every
scalar one), and the absent marker `None` when `f` is absent. -/
theorem C2_getAttribute_roundtrip (fuel : Nat) (t : NodeType) (attrs : JObj)
    (cfg : Option JObj) (caps : Option CapsObj) (chRaw : Option JVal)
    (n : Node) (h : mkNode fuel t attrs cfg caps chRaw = .ok n) :
    n.getAttributesSlot = some (.attrsD attrs) ∧
    (∀ f v, attrs.lookup f = some v → n.getAttribute f = some v) ∧
    (∀ f, attrs.lookup f = none → n.getAttribute f = none) := by
  obtain ⟨_, _, hslot⟩ :=
    mkNode_ok_attributes_slot fuel t attrs cfg caps chRaw n h
  refine ⟨hslot, ?_, ?_⟩
  · intro f v hf
    simp [Node.getAttribute, hslot, hf]
  · intro f hf
    simp [Node.getAttribute, hslot, hf]

/-- Witness for C2 at a concrete CPU document: `product` is returned as in
the raw document and a missing name gives `None`. -/
theorem C2_getAttribute_roundtrip_witness :
    (mkNode 1 .CPU (objOf [("id", .str "cpu:0"), ("product", .str "P")])
        none none none).map
      (fun n => (n.getAttribute "product", n.getAttribute "missing")) =
      .ok (some (.str "P"), none) := by
  obtain ⟨n, hn⟩ : ∃ n, mkNode 1 .CPU
      (objOf [("id", .str "cpu:0"), ("product", .str "P")]) none none none =
      .ok n := ⟨_, rfl⟩
  obtain ⟨-, hpresent, habsent⟩ := C2_getAttribute_roundtrip 1 .CPU
    (objOf [("id", .str "cpu:0"), ("product", .str "P")]) none none none n hn
  rw [hn, Except.map]
  rw [hpresent "product" (.str "P") (by rfl), habsent "missing" (by rfl)]

/-! ## Claim C6: unknown id head is a fatal `KeyError` -/

/-- **C6.** For every child object whose `id` string has a head (the part
before the first `:`) outside `System.idMap`, the dispatcher raises a
`KeyError` carrying that head — provided a present `configuration` value is
a dict, since `Configuration(...)` would raise `TypeError` first otherwise.
No node is produced, at any recursion budget. -/
theorem C6_unknown_head_keyerror (fuel : Nat) (m : JObj) (s : String)
    (hid : m.lookup "id" = some (.str s))
    (hun : idMap (idHead s) = none)
    (hcfg : m.lookup "configuration" = none ∨
      ∃ o, m.lookup "configuration" = some (.obj o)) :
    processChild fuel (.obj m) = .error (.keyError (idHead s)) := by
  rcases hcfg with hcfg | ⟨o, hcfg⟩ <;>
    cases hcaps : m.lookup "capabilities" <;>
      simp [processChild, processChildAux, hid, hcfg, hcaps, hun,
        Bind.bind, Except.bind, pure, Except.pure]

/-- Witness for C6: the spec's own invented example `widget:3`. -/
theorem C6_unknown_head_keyerror_witness :
    processChild 1 (.obj (objOf [("id", .str "widget:3")])) =
      .error (.keyError "widget") :=
  C6_unknown_head_keyerror 1 (objOf [("id", .str "widget:3")]) "widget:3"
    (by rfl) (by rfl) (.inl (by rfl))

/-! ## Claim C4: end-to-end scenario A (CPU with capability schema) -/

/-- **C4.** Materializing
`{"id":"cpu:0","class":"processor","product":"Test CPU",
"capabilities":{"sse2":"true","x86-64":"64bits extensions (x86-64)"}}`
yields a node of the `CPU` class with `errorCount == 0`, whose `product`
attribute is `"Test CPU"`; its capabilities wrapper is a `CPU_Capabilities`
whose schema field `sse2` is `"true"` and whose field `x86_64` is
`"64bits extensions (x86-64)"` (no field under the hyphenated name
`x86-64` exists), with the full original mapping retained. -/
theorem C4_scenarioA :
    (processChild 1 (.obj (objOf [("id", .str "cpu:0"),
        ("class", .str "processor"), ("product", .str "Test CPU"),
        ("capabilities", .obj (objOf [("sse2", .str "true"),
          ("x86-64", .str "64bits extensions (x86-64)")]))]))).map
      (Option.map fun n =>
        (n.type, n.errorCount, n.getAttribute "product",
          match dictGet n.dict "capabilities" with
          | some (.caps c) =>
              some (c.isCpu, capsGet c.fields "sse2",
                capsGet c.fields "x86_64", capsGet c.fields "x86-64",
                c.content)
          | _ => none)) =
    .ok (some (.CPU, 0, some (.str "Test CPU"),
      some (true, some (some (.str "true")),
        some (some (.str "64bits extensions (x86-64)")), none,
        objOf [("sse2", .str "true"),
          ("x86-64", .str "64bits extensions (x86-64)")]))) := rfl

/-! ## Claim C5: a non-array `children` value

The source raises nothing here: `list.__init__(self, "not-a-list")` iterates
the string character-wise, `'id' in object` is a substring test on each
one-character string (always false, the needle has two characters), so the
node is built with `errorCount == 0` (the `children` key is excluded from
the integrity check by name); the copy loop afterwards re-assigns the
scalar `children` value over the `Children` attribute.  There is no
`MalformedDocument` anywhere in the source. -/

/-- A two-character needle is never a substring of a one-character string. -/
theorem strContains_singleton_id (c : Char) :
    strContains (String.singleton c) "id" = false := by
  simp [strContains, String.singleton, containsRun, List.isPrefixOf]

/-- The dispatch loop appends no node for character items. -/
theorem processItems_chars (mkCh : Option JVal → Except PyErr (List ChildItem)) :
    ∀ cs : List Char,
      processItemsAux mkCh (cs.map fun c => JVal.str (String.singleton c)) =
        .ok []
  | [] => rfl
  | c :: cs => by
      simp only [List.map_cons, processItemsAux, processChildAux,
        strContains_singleton_id c, Bool.false_eq_true, if_false]
      rw [processItems_chars mkCh cs]
      rfl

/-- Counterexample to C5 as stated: for
`{"id":"cpu:0","children":"not-a-list"}` the materializer raises nothing —
it returns a `CPU` node with `errorCount == 0`.  The `Children` list built
from the string holds its ten characters as raw items and no typed node,
and the copy loop then re-assigns the `children` attribute to the raw
string itself (a scalar key like any other). -/
theorem C5_counterexample :
    (processChild 2 (.obj (objOf [("id", .str "cpu:0"),
        ("children", .str "not-a-list")]))).map
      (Option.map fun n => (n.type, n.errorCount, n.childrenAttr,
        n.children.length,
        n.children.all fun it =>
          match it with | .raw _ => true | .node _ => false)) =
    .ok (some (.CPU, 0, .inl (.str "not-a-list"), 10, true)) := rfl

/-- **C5 (amended).** For every raw object whose `children` value is a
string, `Children.__init__` raises nothing: the string is iterated
character-wise, each one-character item fails the `'id' in object`
substring test, and the children list is exactly the raw characters with
no typed child node. -/
theorem C5_amended (s : String) (fuel : Nat) :
    mkChildren (fuel + 1) (some (.str s)) =
      .ok (s.data.map fun c => ChildItem.raw (.str (String.singleton c))) := by
  simp only [mkChildren, listifyChildren, Bind.bind, Except.bind,
    processItems_chars (mkChildren fuel) s.data]
  simp

/-! ## Claim C7: a child object without an `id` key -/

/-- Counterexample to C7 as stated: for a child dict lacking `id` the
dispatcher produces no node at all (`processChild` returns no node and
the `Children` list holds only the raw untyped dict). -/
theorem C7_counterexample :
    processChild 1 (.obj (.cons "foo" (.str "bar") .nil)) = .ok none ∧
    mkChildren 2 (some (.arr (.cons (.obj (.cons "foo" (.str "bar") .nil)) .nil))) =
      .ok [.raw (.obj (.cons "foo" (.str "bar") .nil))] := ⟨rfl, rfl⟩

/-- **C7 (amended).** For every child dict without an `id` key the dispatch
loop skips it entirely: no typed node is constructed and no class is
resolved; the raw object survives only as an untyped element of the
`Children` list (placed there by `list.__init__`). -/
theorem C7_amended (fuel : Nat) (m : JObj) (h : m.lookup "id" = none) :
    processChild fuel (.obj m) = .ok none ∧
    ∀ fuel', mkChildren (fuel' + 1) (some (.arr (.cons (.obj m) .nil))) =
      .ok [.raw (.obj m)] := by
  have hpc : ∀ g, processChild g (.obj m) = .ok none := fun g => by
    simp [processChild, processChildAux, h]
  refine ⟨hpc fuel, fun fuel' => ?_⟩
  simp only [mkChildren, listifyChildren, JList.toList, Bind.bind, Except.bind]
  have := hpc fuel'
  simp only [processChild] at this
  simp [processItemsAux, this, Bind.bind, Except.bind]

/-- Witness for C7 (amended) at the concrete no-`id` document. -/
theorem C7_amended_witness :
    processChild 3 (.obj (.cons "vendor" (.str "acme") .nil)) = .ok none ∧
    mkChildren 1 (some (.arr (.cons (.obj (.cons "vendor" (.str "acme") .nil)) .nil))) =
      .ok [.raw (.obj (.cons "vendor" (.str "acme") .nil))] := by
  have h := C7_amended 3 (.cons "vendor" (.str "acme") .nil) (by rfl)
  exact ⟨h.1, h.2 0⟩

/-! ## Claim C10: a raw scalar key named `attributes` -/

/-- **C10.** Every node constructor's copy loop assigns each scalar raw key
as an instance attribute under that key's own name (first conjunct).  In
particular a scalar entry named `attributes` overwrites the stored
raw-attributes mapping itself (second conjunct), after which the
constructor-time integrity check crashes on `.items()` — construction
raises `AttributeError` instead of storing an error count (third
conjunct). -/
theorem C10_attributes_overwrite (fuel : Nat) (t : NodeType) (attrs : JObj)
    (cfg : Option JObj) (caps : Option CapsObj) (chRaw : Option JVal)
    (v : JVal) (ch : List ChildItem)
    (hu : keysUniq attrs = true)
    (hmem : ("attributes", v) ∈ attrs.entries)
    (hs : isScalar v = true)
    (hch : mkChildren fuel chRaw = .ok ch) :
    (∀ k w, (k, w) ∈ attrs.entries → isScalar w = true →
      (k == "class") = false → (k == "class_") = false →
      dictGet (copyLoop (nodeDict0 t cfg caps attrs) attrs) k =
        some (.scalar w)) ∧
    dictGet (copyLoop (nodeDict0 t cfg caps attrs) attrs) "attributes" =
      some (.scalar v) ∧
    mkNode fuel t attrs cfg caps chRaw = .error .attributeError := by
  have hover := copyLoop_get_scalar attrs (nodeDict0 t cfg caps attrs)
    "attributes" v hu hmem hs (by rfl) (by rfl)
  refine ⟨fun k w hm hsw hc hcu =>
    copyLoop_get_scalar attrs (nodeDict0 t cfg caps attrs) k w hu hm hsw hc hcu,
    hover, ?_⟩
  unfold mkNode mkNodeCore
  rw [hch]
  simp [Bind.bind, Except.bind, integrityCheckDict, hover, itemsOfDVal]

/-- Witness for C10: the concrete document
`{"id": "cpu:0", "attributes": "boom"}` makes the CPU constructor raise. -/
theorem C10_attributes_overwrite_witness :
    mkNode 1 .CPU (objOf [("id", .str "cpu:0"), ("attributes", .str "boom")])
      none none none = .error .attributeError := by
  have h := C10_attributes_overwrite 1 .CPU
    (objOf [("id", .str "cpu:0"), ("attributes", .str "boom")])
    none none none (.str "boom") [] (by rfl)
    (by simp only [objOf, JObj.entries]
        exact List.mem_cons_of_mem _ (List.mem_cons_self _ _))
    (by rfl) (by rfl)
  exact h.2.2

/-! ## Claim C1: shape of the `Children` list -/

/-- Items for which the dispatch loop appends a typed node: dicts with an
`id` key (all other item shapes are skipped or raise). -/
def isObjWithId : JVal → Bool
  | .obj m => m.hasKey "id"
  | _ => false

/-- A successfully produced node comes from a dict item with an `id` key. -/
theorem processChildAux_ok_some
    (mkCh : Option JVal → Except PyErr (List ChildItem)) (it : JVal)
    (n : Node) (h : processChildAux mkCh it = .ok (some n)) :
    isObjWithId it = true := by
  cases it with
  | obj m =>
      cases hl : m.lookup "id" with
      | none =>
          rw [processChildAux, hl] at h
          exact absurd h (by simp)
      | some v => simp [isObjWithId, JObj.hasKey, hl]
  | str s => by_cases hc : strContains s "id" <;> simp [processChildAux, hc] at h
  | arr l => by_cases hc : jListMem l (.str "id") <;> simp [processChildAux, hc] at h
  | null => simp [processChildAux] at h
  | bool b => simp [processChildAux] at h
  | num x => simp [processChildAux] at h

/-- A dict item with a string `id` never yields "no node": the dispatcher
either raises or appends one. -/
theorem processChildAux_obj_id_ne_none
    (mkCh : Option JVal → Except PyErr (List ChildItem)) (m : JObj)
    (s : String) (hl : m.lookup "id" = some (.str s)) :
    processChildAux mkCh (.obj m) ≠ .ok none := by
  intro h
  simp only [processChildAux, hl, Bind.bind, Except.bind, pure,
    Except.pure] at h
  repeat' split at h
  all_goals simp_all

/-- A skipped item is not a dict with an `id` key. -/
theorem processChildAux_ok_none
    (mkCh : Option JVal → Except PyErr (List ChildItem)) (it : JVal)
    (h : processChildAux mkCh it = .ok none) : isObjWithId it = false := by
  cases it with
  | obj m =>
      cases hl : m.lookup "id" with
      | none => simp [isObjWithId, JObj.hasKey, hl]
      | some v =>
          cases v with
          | str s => exact absurd h (processChildAux_obj_id_ne_none mkCh m s hl)
          | null => rw [processChildAux, hl] at h; exact absurd h (by simp)
          | bool b => rw [processChildAux, hl] at h; exact absurd h (by simp)
          | num x => rw [processChildAux, hl] at h; exact absurd h (by simp)
          | arr l => rw [processChildAux, hl] at h; exact absurd h (by simp)
          | obj o => rw [processChildAux, hl] at h; exact absurd h (by simp)
  | str s => simp [isObjWithId]
  | arr l => simp [isObjWithId]
  | null => simp [isObjWithId]
  | bool b => simp [isObjWithId]
  | num x => simp [isObjWithId]

/-- The typed nodes appended by the dispatch loop: one per dict item with an
`id` key, in item order. -/
theorem processItems_shape (mkCh : Option JVal → Except PyErr (List ChildItem)) :
    ∀ (items : List JVal) (out : List ChildItem),
      processItemsAux mkCh items = .ok out →
      ∃ ns : List Node, out = ns.map .node ∧
        ns.length = (items.filter isObjWithId).length
  | [], out, h => by
      refine ⟨[], ?_, rfl⟩
      injection h with h
      exact h.symm
  | it :: tl, out, h => by
      simp only [processItemsAux, Bind.bind, Except.bind] at h
      cases hpc : processChildAux mkCh it with
      | error e => rw [hpc] at h; exact absurd h (by simp)
      | ok n? =>
          rw [hpc] at h
          cases hrest : processItemsAux mkCh tl with
          | error e => rw [hrest] at h; exact absurd h (by simp)
          | ok rest =>
              rw [hrest] at h
              obtain ⟨ns, hns, hlen⟩ := processItems_shape mkCh tl rest hrest
              cases n? with
              | some n =>
                  have hobj := processChildAux_ok_some mkCh it n hpc
                  simp only at h
                  injection h with h
                  refine ⟨n :: ns, ?_, ?_⟩
                  · rw [← h, hns]; rfl
                  · simp [List.filter, hobj, hlen]
              | none =>
                  have hobj := processChildAux_ok_none mkCh it hpc
                  simp only at h
                  injection h with h
                  exact ⟨ns, by rw [← h, hns], by simp [List.filter, hobj, hlen]⟩

/-- Counterexample to C1 as stated: for the scenario-B children array
`[{"id":"cache:0","class":"memory"}, {"id":"bank:0","class":"memory"}]` the
`Children` list has four elements, not two — the two raw dicts with which
`list.__init__(self, children)` seeds the list, followed by the two
appended typed nodes (`Cache` then `Bank`).  The element at index 0 is a
raw dict, not a `Cache` node. -/
theorem C1_counterexample :
    (mkChildren 2 (some (.arr (listOf
        [.obj (objOf [("id", .str "cache:0"), ("class", .str "memory")]),
         .obj (objOf [("id", .str "bank:0"), ("class", .str "memory")])])))).map
      (fun items => (items.length, items.map fun it =>
        match it with
        | .raw _ => (none : Option NodeType)
        | .node n => some n.type)) =
    .ok (4, [none, none, some .Cache, some .Bank]) := rfl

/-- **C1 (amended).** For a `children` array the `Children` list is the raw
elements (in array order) followed by one appended typed node per element
that is a dict containing an `id` key, in that order; its total length is
the array length plus the number of such dicts, and an absent `children`
key gives an empty list. -/
theorem C1_amended (elems : JList) (fuel : Nat) (items : List ChildItem)
    (h : mkChildren (fuel + 1) (some (.arr elems)) = .ok items) :
    items.take elems.toList.length = elems.toList.map .raw ∧
    items.length = elems.toList.length +
      (elems.toList.filter isObjWithId).length ∧
    (∃ ns : List Node, items = elems.toList.map .raw ++ ns.map .node ∧
      ns.length = (elems.toList.filter isObjWithId).length) ∧
    mkChildren (fuel + 1) none = .ok [] := by
  simp only [mkChildren, listifyChildren, Bind.bind, Except.bind] at h
  cases hpi : processItemsAux (mkChildren fuel) elems.toList with
  | error e => rw [hpi] at h; exact absurd h (by simp)
  | ok nodes =>
      rw [hpi] at h
      simp only at h
      injection h with h
      obtain ⟨ns, hns, hlen⟩ := processItems_shape _ _ _ hpi
      subst hns
      refine ⟨?_, ?_, ⟨ns, h.symm, hlen⟩, rfl⟩
      · rw [← h]
        have hL : elems.toList.length =
            (elems.toList.map ChildItem.raw).length := by simp
        rw [hL, List.take_left]
      · rw [← h]
        simp [hlen]

/-- Witness for C1 (amended) at the scenario-B array: the first two items
are the raw dicts and the total length is `2 + 2`. -/
theorem C1_amended_witness :
    (mkChildren 2 (some (.arr (listOf
        [.obj (objOf [("id", .str "cache:0"), ("class", .str "memory")]),
         .obj (objOf [("id", .str "bank:0"), ("class", .str "memory")])])))).map
      (fun items => (items.take 2, items.length)) =
    .ok ([.raw (.obj (objOf [("id", .str "cache:0"), ("class", .str "memory")])),
          .raw (.obj (objOf [("id", .str "bank:0"), ("class", .str "memory")]))],
         4) := by
  obtain ⟨items, hit⟩ : ∃ items, mkChildren 2 (some (.arr (listOf
      [.obj (objOf [("id", .str "cache:0"), ("class", .str "memory")]),
       .obj (objOf [("id", .str "bank:0"), ("class", .str "memory")])]))) =
      .ok items := ⟨_, rfl⟩
  obtain ⟨htake, hlen, -, -⟩ := C1_amended _ 1 items hit
  rw [hit, Except.map]
  simp only [JList.toList, listOf, List.length] at htake hlen
  rw [htake, hlen]
  rfl

/-! ## Claim C3: the integrity check on dispatcher-shaped input -/

/-- No entry of the raw dict writes the slot of a unique non-scalar entry
(the copy loop skips containers; other keys are distinct). -/
theorem writesKey_false_of_unique_nonscalar :
    ∀ (o : JObj) (k : String) (v : JVal), keysUniq o = true →
      (k, v) ∈ o.entries → isScalar v = false → k ≠ "class_" →
      writesKey o k = false
  | .nil, _, _, _, h, _, _ => by simp [JObj.entries] at h
  | .cons k' v' tl, k, v, hu, hmem, hs, hcu => by
      simp only [keysUniq, Bool.and_eq_true, Bool.not_eq_true'] at hu
      obtain ⟨hu1, hu2⟩ := hu
      simp only [JObj.entries, List.mem_cons] at hmem
      rcases hmem with hmem | hmem
      · have h1 : k = k' := congrArg Prod.fst hmem
        have h2 : v = v' := congrArg Prod.snd hmem
        subst h1; subst h2
        simp only [writesKey, hs, Bool.false_and, Bool.false_or]
        exact writesKey_false_of_no_key tl k hu1 hcu
      · have hne : (k' == k) = false := by
          by_cases hk : k' == k
          · have hin : tl.hasKey k = true :=
              hasKey_of_mem_entries tl k v hmem
            have hke : k' = k := by simpa using hk
            rw [hke] at hu1
            rw [hu1] at hin
            exact absurd hin (by simp)
          · exact eq_false_of_ne_true hk
        simp only [writesKey,
          writesKey_false_of_unique_nonscalar tl k v hu2 hmem hs hcu,
          Bool.or_false, Bool.and_eq_false_iff]
        right
        by_cases hc : k' == "class"
        · simp only [if_pos hc, beq_eq_false_iff_ne, ne_eq]
          exact fun hcontra => hcu hcontra.symm
        · simp only [if_neg hc]
          exact hne

/-- The original mapping retained by either capabilities wrapper. -/
theorem mkCapsObj_content (b : Bool) (l : JObj) : (mkCapsObj b l).content = l := by
  cases b <;> rfl

/-- The shape relation the dispatcher establishes between the raw dict and
the `configuration` argument it passes: absent key gives `None`, a dict
value gives the wrapped dict (any other value would raise `TypeError` in
`Configuration(...)` and never reach the constructor). -/
def cfgLink (attrs : JObj) (cfg : Option JObj) : Prop :=
  match attrs.lookup "configuration" with
  | none => cfg = none
  | some (.obj l) => cfg = some l
  | some _ => False

/-- The dispatcher's shape relation for the `capabilities` argument (either
wrapper class retains the mapping as its `OrderedDict` content). -/
def capsLink (attrs : JObj) (caps : Option CapsObj) : Prop :=
  match attrs.lookup "capabilities" with
  | none => caps = none
  | some (.obj l) => ∃ b, caps = some (mkCapsObj b l)
  | some _ => False

/-- **C3 (amended).** For a node built by the materializer from a
well-formed raw dict whose non-scalar values sit only under `children`,
`logicalname`, `configuration` or `capabilities` (the container keys the
source code anticipates), and which contains no key literally named
`class_` or `attributes`, the constructor-time integrity check completes
without raising and reports `errorCount == 0`.  (The claim's stronger "any
mix of scalar, list, and object values among its top-level keys" is false:
see the counterexample, where an object value under the unanticipated key
`resources` makes the check raise `KeyError`.) -/
theorem C3_amended (fuel : Nat) (t : NodeType) (attrs : JObj)
    (cfg : Option JObj) (caps : Option CapsObj) (chRaw : Option JVal)
    (ch : List ChildItem)
    (hwf : wfJ (.obj attrs) = true)
    (hcont : (attrs.entries.all fun p => isScalar p.2 ||
      (p.1 == "children" || p.1 == "logicalname" || p.1 == "configuration" ||
       p.1 == "capabilities")) = true)
    (hnoclassu : attrs.hasKey "class_" = false)
    (hnoattr : attrs.hasKey "attributes" = false)
    (hcfg : cfgLink attrs cfg)
    (hcaps : capsLink attrs caps)
    (hch : mkChildren fuel chRaw = .ok ch) :
    (mkNode fuel t attrs cfg caps chRaw).map Node.errorCount = .ok 0 := by
  simp only [wfJ, Bool.and_eq_true] at hwf
  obtain ⟨huniq, hwfo⟩ := hwf
  have hattrslot : dictGet (copyLoop (nodeDict0 t cfg caps attrs) attrs)
      "attributes" = some (.attrsD attrs) := by
    rw [copyLoop_get_of_not_writes attrs "attributes" _
      (writesKey_false_of_no_key attrs "attributes" hnoattr (by decide))]
    rfl
  have hic : integrityCheckDict (copyLoop (nodeDict0 t cfg caps attrs) attrs) =
      .ok (0, []) := by
    rw [integrityCheckDict, hattrslot]
    simp only [itemsOfDVal]
    apply icLoop_ok_of_match
    intro k v hmem hc hl
    by_cases hs : isScalar v
    · by_cases hcl : (k == "class")
      · have hke : k = "class" := by simpa using hcl
        subst hke
        refine ⟨.scalar v, ?_, jEq_refl_scalar v hs⟩
        simp only [if_pos hcl]
        exact copyLoop_get_class attrs _ v huniq hmem hs hnoclassu
      · have hkcu : (k == "class_") = false := by
          by_cases hk : k == "class_"
          · have hke : k = "class_" := by simpa using hk
            subst hke
            have := hasKey_of_mem_entries attrs _ v hmem
            rw [hnoclassu] at this
            exact absurd this (by simp)
          · exact eq_false_of_ne_true hk
        refine ⟨.scalar v, ?_, jEq_refl_scalar v hs⟩
        simp only [hcl, Bool.false_eq_true, if_false]
        exact copyLoop_get_scalar attrs _ k v huniq hmem hs
          (eq_false_of_ne_true hcl) hkcu
    · have hcase := List.all_eq_true.mp hcont _ hmem
      simp only [eq_false_of_ne_true hs, Bool.false_or, hc, hl,
        Bool.or_eq_true, beq_iff_eq] at hcase
      have hkcu : k ≠ "class_" := by
        rcases hcase with h | h <;> simp [h]
      have hnw : writesKey attrs k = false :=
        writesKey_false_of_unique_nonscalar attrs k v huniq hmem
          (eq_false_of_ne_true hs) hkcu
      have hlook : attrs.lookup k = some v :=
        lookup_of_mem_entries_uniq attrs k v huniq hmem
      have hwv : wfJ v = true := wfJ_of_mem_entries attrs k v hwfo hmem
      have hkc : (k == "class") = false := by
        rcases hcase with h | h <;> simp [h]
      rcases hcase with h | h
      · -- configuration
        subst h
        rw [cfgLink, hlook] at hcfg
        cases v with
        | obj l =>
            subst hcfg
            refine ⟨.config l, ?_, ?_⟩
            · simp only [hkc, Bool.false_eq_true, if_false]
              rw [copyLoop_get_of_not_writes attrs _ _ hnw]
              rfl
            · simp only [wfJ, Bool.and_eq_true] at hwv
              simpa [pyEqDJ] using jObjEq_refl l hwv.1 hwv.2
        | null => exact absurd hcfg (by simp)
        | bool b => exact absurd hcfg (by simp)
        | num x => exact absurd hcfg (by simp)
        | str s => exact absurd hcfg (by simp)
        | arr l => exact absurd hcfg (by simp)
      · -- capabilities
        subst h
        rw [capsLink, hlook] at hcaps
        cases v with
        | obj l =>
            obtain ⟨b, hb⟩ := hcaps
            subst hb
            refine ⟨.caps (mkCapsObj b l), ?_, ?_⟩
            · simp only [hkc, Bool.false_eq_true, if_false]
              rw [copyLoop_get_of_not_writes attrs _ _ hnw]
              rfl
            · simp only [wfJ, Bool.and_eq_true] at hwv
              simpa [pyEqDJ, mkCapsObj_content] using
                jObjEq_refl l hwv.1 hwv.2
        | null => exact absurd hcaps (by simp)
        | bool b => exact absurd hcaps (by simp)
        | num x => exact absurd hcaps (by simp)
        | str s => exact absurd hcaps (by simp)
        | arr l => exact absurd hcaps (by simp)
  unfold mkNode mkNodeCore
  rw [hch]
  simp [Bind.bind, Except.bind, hic, Node.errorCount, Except.map]

/-- Counterexample to C3 as stated: a well-formed raw object carrying an
object value under the unanticipated key `resources` makes the
constructor-time integrity check raise `KeyError` (the value is skipped by
the copy loop, so `self.__dict__['resources']` does not exist), aborting
materialization — not "completes without raising". -/
theorem C3_counterexample :
    processChild 1 (.obj (objOf [("id", .str "cpu:0"),
      ("resources", .obj (objOf [("irq", .str "9")]))])) =
    .error (.keyError "resources") := rfl

/-- Witness for C3 (amended): a CPU document with scalar fields plus
`configuration` and `capabilities` dicts materializes with
`errorCount == 0`. -/
theorem C3_amended_witness :
    (mkNode 1 .CPU
      (objOf [("id", .str "cpu:0"), ("class", .str "processor"),
        ("configuration", .obj (objOf [("driver", .str "x")])),
        ("capabilities", .obj (objOf [("sse2", .str "true")]))])
      (some (objOf [("driver", .str "x")]))
      (some (mkCapsObj true (objOf [("sse2", .str "true")])))
      none).map Node.errorCount = .ok 0 :=
  C3_amended 1 .CPU
    (objOf [("id", .str "cpu:0"), ("class", .str "processor"),
      ("configuration", .obj (objOf [("driver", .str "x")])),
      ("capabilities", .obj (objOf [("sse2", .str "true")]))])
    (some (objOf [("driver", .str "x")]))
    (some (mkCapsObj true (objOf [("sse2", .str "true")])))
    none [] (by rfl) (by rfl) (by rfl) (by rfl) (by rfl) ⟨true, rfl⟩ (by rfl)

/-! ## Claim C9: the `firewire` branch instantiates `Firmware` -/

/-- No branch of the dispatch chain chooses the `FireWire` class: the
`HardwareId.FireWire` branch (source lines 304-305) appends `Firmware`. -/
theorem constructorOf_ne_FireWire (hid : HardwareId) :
    constructorOf hid ≠ .FireWire := by
  cases hid <;> simp [constructorOf]

/-- Every node the dispatch loop appends comes out of a constructor chosen
by `constructorOf` from the item's `id` head. -/
theorem processChildAux_ok_some_destruct
    (mkCh : Option JVal → Except PyErr (List ChildItem)) (it : JVal)
    (n : Node) (h : processChildAux mkCh it = .ok (some n)) :
    ∃ (m : JObj) (s : String) (hid : HardwareId) (cfgv : Option JObj)
      (capsv : Option CapsObj),
      it = .obj m ∧ m.lookup "id" = some (.str s) ∧
      idMap (idHead s) = some hid ∧
      mkNodeCore mkCh (constructorOf hid) m cfgv capsv (m.lookup "children") =
        .ok n := by
  cases it with
  | obj m =>
      cases hl : m.lookup "id" with
      | none => rw [processChildAux, hl] at h; exact absurd h (by simp)
      | some v =>
          cases v with
          | str s =>
              simp only [processChildAux, hl, Bind.bind, Except.bind, pure,
                Except.pure] at h
              rcases hcv : m.lookup "configuration" with _ | cv
              case some =>
                cases cv <;> simp only [hcv] at h <;>
                  try exact absurd h (by simp)
                case obj o =>
                  rcases hcp : m.lookup "capabilities" with _ | pv
                  case none =>
                    simp only [hcp] at h
                    rcases him : idMap (idHead s) with _ | hid <;>
                      simp only [him] at h
                    case none => exact absurd h (by simp)
                    case some =>
                      cases hmk : mkNodeCore mkCh (constructorOf hid) m
                          (some o) none (m.lookup "children") with
                      | error e => rw [hmk] at h; exact absurd h (by simp)
                      | ok n' =>
                          rw [hmk] at h
                          simp only [Except.ok.injEq, Option.some.injEq] at h
                          exact ⟨m, s, hid, some o, none, rfl, hl, him,
                            h ▸ hmk⟩
                  case some =>
                    simp only [hcp] at h
                    rcases him : idMap (idHead s) with _ | hid <;>
                      simp only [him] at h
                    case none => exact absurd h (by simp)
                    case some =>
                      cases pv <;> simp only at h <;>
                        try exact absurd h (by simp)
                      case obj po =>
                        cases hmk : mkNodeCore mkCh (constructorOf hid) m
                            (some o)
                            (some (mkCapsObj (hid == .CPU) po))
                            (m.lookup "children") with
                        | error e => rw [hmk] at h; exact absurd h (by simp)
                        | ok n' =>
                            rw [hmk] at h
                            simp only [Except.ok.injEq, Option.some.injEq] at h
                            exact ⟨m, s, hid, some o,
                              some (mkCapsObj (hid == .CPU) po), rfl, hl,
                              him, h ▸ hmk⟩
              case none =>
                simp only [hcv] at h
                rcases hcp : m.lookup "capabilities" with _ | pv
                case none =>
                  simp only [hcp] at h
                  rcases him : idMap (idHead s) with _ | hid <;>
                    simp only [him] at h
                  case none => exact absurd h (by simp)
                  case some =>
                    cases hmk : mkNodeCore mkCh (constructorOf hid) m
                        none none (m.lookup "children") with
                    | error e => rw [hmk] at h; exact absurd h (by simp)
                    | ok n' =>
                        rw [hmk] at h
                        simp only [Except.ok.injEq, Option.some.injEq] at h
                        exact ⟨m, s, hid, none, none, rfl, hl, him, h ▸ hmk⟩
                case some =>
                  simp only [hcp] at h
                  rcases him : idMap (idHead s) with _ | hid <;>
                    simp only [him] at h
                  case none => exact absurd h (by simp)
                  case some =>
                    cases pv <;> simp only at h <;>
                      try exact absurd h (by simp)
                    case obj po =>
                      cases hmk : mkNodeCore mkCh (constructorOf hid) m
                          none (some (mkCapsObj (hid == .CPU) po))
                          (m.lookup "children") with
                      | error e => rw [hmk] at h; exact absurd h (by simp)
                      | ok n' =>
                          rw [hmk] at h
                          simp only [Except.ok.injEq, Option.some.injEq] at h
                          exact ⟨m, s, hid, none,
                            some (mkCapsObj (hid == .CPU) po), rfl, hl,
                            him, h ▸ hmk⟩
          | null => rw [processChildAux, hl] at h; exact absurd h (by simp)
          | bool b => rw [processChildAux, hl] at h; exact absurd h (by simp)
          | num x => rw [processChildAux, hl] at h; exact absurd h (by simp)
          | arr l => rw [processChildAux, hl] at h; exact absurd h (by simp)
          | obj o => rw [processChildAux, hl] at h; exact absurd h (by simp)
  | str s => by_cases hc : strContains s "id" <;> simp [processChildAux, hc] at h
  | arr l => by_cases hc : jListMem l (.str "id") <;> simp [processChildAux, hc] at h
  | null => simp [processChildAux] at h
  | bool b => simp [processChildAux] at h
  | num x => simp [processChildAux] at h

/-- Recursively FireWire-free `Children` items: raw payloads, and nodes
whose class is not `FireWire` and whose own children are FireWire-free. -/
inductive FWFreeItem : ChildItem → Prop where
  | raw (v : JVal) : FWFreeItem (.raw v)
  | node (t : NodeType) (a : JObj) (d : List (String × DVal))
      (ch : List ChildItem) (ec : Nat) (errs : List (String × JVal × DVal))
      (ht : t ≠ .FireWire) (hch : ∀ it ∈ ch, FWFreeItem it) :
      FWFreeItem (.node (.mk t a d ch ec errs))

/-- If the recursive `Children` constructor only produces FireWire-free
items, so does one pass of the dispatch loop. -/
theorem processItems_FWFree
    (mkCh : Option JVal → Except PyErr (List ChildItem))
    (hyp : ∀ chOpt ch, mkCh chOpt = .ok ch → ∀ it ∈ ch, FWFreeItem it) :
    ∀ (items : List JVal) (out : List ChildItem),
      processItemsAux mkCh items = .ok out → ∀ it ∈ out, FWFreeItem it
  | [], out, h => by
      injection h with h
      rw [← h]
      intro it hit
      simp at hit
  | it0 :: tl, out, h => by
      simp only [processItemsAux, Bind.bind, Except.bind] at h
      cases hpc : processChildAux mkCh it0 with
      | error e => rw [hpc] at h; exact absurd h (by simp)
      | ok n? =>
          rw [hpc] at h
          cases hrest : processItemsAux mkCh tl with
          | error e => rw [hrest] at h; exact absurd h (by simp)
          | ok rest =>
              rw [hrest] at h
              have hr := processItems_FWFree mkCh hyp tl rest hrest
              cases n? with
              | some n =>
                  simp only at h
                  injection h with h
                  rw [← h]
                  intro it hit
                  rcases List.mem_cons.mp hit with hit | hit
                  · subst hit
                    obtain ⟨m, s, hid, cfgv, capsv, -, -, -, hmk⟩ :=
                      processChildAux_ok_some_destruct mkCh it0 n hpc
                    obtain ⟨ch, cnt, errs, hch, -, hn⟩ :=
                      mkNodeCore_ok_destruct mkCh (constructorOf hid) m cfgv
                        capsv (m.lookup "children") n hmk
                    subst hn
                    exact .node _ _ _ _ _ _ (constructorOf_ne_FireWire hid)
                      (hyp _ ch hch)
                  · exact hr it hit
              | none =>
                  simp only at h
                  injection h with h
                  rw [← h]
                  exact hr

/-- The `Children` constructor never returns a tree containing a `FireWire`
node, at any fuel. -/
theorem mkChildren_FWFree :
    ∀ (fuel : Nat) (chOpt : Option JVal) (items : List ChildItem),
      mkChildren fuel chOpt = .ok items → ∀ it ∈ items, FWFreeItem it := by
  intro fuel
  induction fuel with
  | zero => intro chOpt items h; simp [mkChildren] at h
  | succ f ih =>
      intro chOpt items h
      match chOpt with
      | none =>
          injection h with h
          rw [← h]; intro it hit; simp at hit
      | some .null =>
          injection h with h
          rw [← h]; intro it hit; simp at hit
      | some (.str s) =>
          simp only [mkChildren, listifyChildren, Bind.bind, Except.bind] at h
          cases hpi : processItemsAux (mkChildren f)
              (s.data.map fun c => JVal.str (String.singleton c)) with
          | error e => rw [hpi] at h; exact absurd h (by simp)
          | ok nodes =>
              rw [hpi] at h
              simp only at h
              injection h with h
              rw [← h]
              intro it hit
              rcases List.mem_append.mp hit with hit | hit
              · obtain ⟨v, -, hv⟩ := List.mem_map.mp hit
                rw [← hv]; exact .raw _
              · exact processItems_FWFree (mkChildren f) ih _ nodes hpi it hit
      | some (.arr l) =>
          simp only [mkChildren, listifyChildren, Bind.bind, Except.bind] at h
          cases hpi : processItemsAux (mkChildren f) l.toList with
          | error e => rw [hpi] at h; exact absurd h (by simp)
          | ok nodes =>
              rw [hpi] at h
              simp only at h
              injection h with h
              rw [← h]
              intro it hit
              rcases List.mem_append.mp hit with hit | hit
              · obtain ⟨v, -, hv⟩ := List.mem_map.mp hit
                rw [← hv]; exact .raw _
              · exact processItems_FWFree (mkChildren f) ih _ nodes hpi it hit
      | some (.obj m) =>
          simp only [mkChildren, listifyChildren, Bind.bind, Except.bind] at h
          cases hpi : processItemsAux (mkChildren f)
              (m.keys.map JVal.str) with
          | error e => rw [hpi] at h; exact absurd h (by simp)
          | ok nodes =>
              rw [hpi] at h
              simp only at h
              injection h with h
              rw [← h]
              intro it hit
              rcases List.mem_append.mp hit with hit | hit
              · obtain ⟨v, -, hv⟩ := List.mem_map.mp hit
                rw [← hv]; exact .raw _
              · exact processItems_FWFree (mkChildren f) ih _ nodes hpi it hit
      | some (.bool b) => simp [mkChildren, listifyChildren, Bind.bind, Except.bind] at h
      | some (.num x) => simp [mkChildren, listifyChildren, Bind.bind, Except.bind] at h

/-- **C9.** For every child dict whose `id` head is `firewire`, a
successfully dispatched node was built by the `Firmware` constructor, and
more generally the children dispatcher never instantiates the `FireWire`
class for any input at any depth. -/
theorem C9_firewire_dispatches_Firmware :
    (∀ (fuel : Nat) (m : JObj) (s : String) (n : Node),
      m.lookup "id" = some (.str s) → idHead s = "firewire" →
      processChild fuel (.obj m) = .ok (some n) → n.type = .Firmware) ∧
    (∀ (fuel : Nat) (chOpt : Option JVal) (items : List ChildItem),
      mkChildren fuel chOpt = .ok items → ∀ it ∈ items, FWFreeItem it) := by
  constructor
  · intro fuel m s n hid hhead h
    obtain ⟨m', s', hid', cfgv, capsv, hobj, hlook, him, hmk⟩ :=
      processChildAux_ok_some_destruct (mkChildren fuel) (.obj m) n h
    have hm : m' = m := by injection hobj with hobj; exact hobj.symm
    subst hm
    rw [hid] at hlook
    have hs : s' = s := by
      injection hlook with hlook
      injection hlook with hlook
      exact hlook.symm
    subst hs
    rw [hhead] at him
    have : hid' = .FireWire := by
      simpa [idMap] using him.symm
    subst this
    obtain ⟨ch, cnt, errs, -, -, hn⟩ :=
      mkNodeCore_ok_destruct _ _ _ _ _ _ _ hmk
    subst hn
    rfl
  · exact mkChildren_FWFree

/-- Witness for C9 at a concrete `firewire:0` child: the produced node's
class is `Firmware`, not `FireWire`. -/
theorem C9_firewire_dispatches_Firmware_witness :
    (processChild 1 (.obj (objOf [("id", .str "firewire:0")]))).map
      (Option.map Node.type) = .ok (some .Firmware) := by
  obtain ⟨n, hn⟩ : ∃ n, processChild 1
      (.obj (objOf [("id", .str "firewire:0")])) = .ok (some n) := ⟨_, rfl⟩
  have ht := C9_firewire_dispatches_Firmware.1 1
    (objOf [("id", .str "firewire:0")]) "firewire:0" n (by rfl) (by rfl) hn
  rw [hn, Except.map]
  simp [ht]

/-! ## Claim C8: `deepcopy` is a defensive copy (heap model)

Every node constructor runs `self.attributes = deepcopy(attributes)`
(e.g. `Computer.__init__` line 398, `CPU.__init__` line 548, with the
source comment "Security: prevent passed in argument from being changed
from outside").  Mutation is meaningless over pure values, so this claim
is settled over an explicit heap: a store of mutable dict/list cells
addressed by `Nat`, with immutable payloads (`None`, numbers, strings,
booleans — which Python `deepcopy` shares) held immediately in references.
`deepcopyH` is the embedding of `copy.deepcopy` on such a heap: it
allocates fresh cells (by appending to the store) for every dict and list
reachable from the argument and shares immutable payloads.  Mutating the
original object afterwards can only rewrite cells at pre-existing
addresses (below the store length at copy time) or allocate beyond the
copy; the claim is that reads of the copy are unaffected. -/

/-- A reference held by a dict entry or list element: an immutable payload
(shared by `deepcopy`, unreachable by mutation) or a mutable cell address. -/
inductive HRef where
  | imm (v : JVal)
  | addr (a : Nat)

/-- A mutable heap cell: a dict or a list of references. -/
inductive HCell where
  | dictC (entries : List (String × HRef))
  | listC (elems : List HRef)

/-- Read all entries of a dict cell through a given dereference. -/
def readEntriesAux (rd : HRef → Option JVal) :
    List (String × HRef) → Option JObj
  | [] => some .nil
  | (k, r) :: t =>
      match rd r, readEntriesAux rd t with
      | some v, some o => some (.cons k v o)
      | _, _ => none

/-- Read all elements of a list cell through a given dereference. -/
def readElemsAux (rd : HRef → Option JVal) : List HRef → Option JList
  | [] => some .nil
  | r :: t =>
      match rd r, readElemsAux rd t with
      | some v, some l => some (.cons v l)
      | _, _ => none

/-- Dereference to a pure value, with a recursion budget (one unit per
cell hop). -/
def readH : Nat → List HCell → HRef → Option JVal
  | 0, _, _ => none
  | fuel + 1, st, r =>
      match r with
      | .imm v => some v
      | .addr a =>
          match st[a]? with
          | none => none
          | some (.dictC es) => (readEntriesAux (readH fuel st) es).map .obj
          | some (.listC rs) => (readElemsAux (readH fuel st) rs).map .arr

/-- Copy a run of dict entries left to right through a given copier,
threading the growing store. -/
def dcEntriesAux (dc : List HCell → HRef → Option (List HCell × HRef)) :
    List HCell → List (String × HRef) →
    Option (List HCell × List (String × HRef))
  | st, [] => some (st, [])
  | st, (k, r) :: t =>
      match dc st r with
      | none => none
      | some (st1, r') =>
          match dcEntriesAux dc st1 t with
          | none => none
          | some (st2, t') => some (st2, (k, r') :: t')

/-- See `dcEntriesAux`. -/
def dcElemsAux (dc : List HCell → HRef → Option (List HCell × HRef)) :
    List HCell → List HRef → Option (List HCell × List HRef)
  | st, [] => some (st, [])
  | st, r :: t =>
      match dc st r with
      | none => none
      | some (st1, r') =>
          match dcElemsAux dc st1 t with
          | none => none
          | some (st2, t') => some (st2, r' :: t')

/-- The embedding of `copy.deepcopy`: immutable payloads are shared, every
reachable cell is copied bottom-up into a fresh cell appended to the
store.  Returns the grown store and a reference to the copy. -/
def deepcopyH : Nat → List HCell → HRef → Option (List HCell × HRef)
  | 0, _, _ => none
  | fuel + 1, st, r =>
      match r with
      | .imm v => some (st, .imm v)
      | .addr a =>
          match st[a]? with
          | none => none
          | some (.dictC es) =>
              match dcEntriesAux (deepcopyH fuel) st es with
              | none => none
              | some (st1, es') => some (st1 ++ [.dictC es'], .addr st1.length)
          | some (.listC rs) =>
              match dcElemsAux (deepcopyH fuel) st rs with
              | none => none
              | some (st1, rs') => some (st1 ++ [.listC rs'], .addr st1.length)

/-- A reference is dangling-free in a store. -/
def refOkB (st : List HCell) : HRef → Bool
  | .imm _ => true
  | .addr a => a < st.length

/-- All entry references of a dict cell are dangling-free. -/
def entriesOkB (st : List HCell) (es : List (String × HRef)) : Bool :=
  es.all fun kv => refOkB st kv.2

/-- All element references of a list cell are dangling-free. -/
def elemsOkB (st : List HCell) (rs : List HRef) : Bool :=
  rs.all (refOkB st)

/-- A cell only references existing cells. -/
def cellOkB (st : List HCell) : HCell → Bool
  | .dictC es => entriesOkB st es
  | .listC rs => elemsOkB st rs

/-- A store with no dangling references — every heap Python builds from
`json.loads` output is of this form. -/
def wfStore (st : List HCell) : Bool := st.all (cellOkB st)

/-- Mutation of pre-existing objects after the copy: the mutated heap may
differ from the grown store anywhere except on the freshly allocated
range, which only the copy references. -/
def agreeFresh (st st' t : List HCell) : Prop :=
  ∀ a, st.length ≤ a → a < st'.length → t[a]? = st'[a]?

theorem refOkB_mono (st ext : List HCell) (r : HRef)
    (h : refOkB st r = true) : refOkB (st ++ ext) r = true := by
  cases r with
  | imm v => rfl
  | addr a =>
      simp only [refOkB, List.length_append, decide_eq_true_eq] at *
      omega

theorem entriesOkB_mono (st ext : List HCell) (es : List (String × HRef))
    (h : entriesOkB st es = true) : entriesOkB (st ++ ext) es = true := by
  simp only [entriesOkB, List.all_eq_true] at *
  exact fun kv hkv => refOkB_mono st ext kv.2 (h kv hkv)

theorem elemsOkB_mono (st ext : List HCell) (rs : List HRef)
    (h : elemsOkB st rs = true) : elemsOkB (st ++ ext) rs = true := by
  simp only [elemsOkB, List.all_eq_true] at *
  exact fun r hr => refOkB_mono st ext r (h r hr)

theorem cellOkB_mono (st ext : List HCell) (c : HCell)
    (h : cellOkB st c = true) : cellOkB (st ++ ext) c = true := by
  cases c with
  | dictC es => exact entriesOkB_mono st ext es h
  | listC rs => exact elemsOkB_mono st ext rs h

theorem wfStore_concat (st : List HCell) (c : HCell)
    (hwf : wfStore st = true) (hc : cellOkB st c = true) :
    wfStore (st ++ [c]) = true := by
  simp only [wfStore, List.all_eq_true] at *
  intro x hx
  rcases List.mem_append.mp hx with hx | hx
  · exact cellOkB_mono st [c] x (hwf x hx)
  · rw [List.mem_singleton.mp hx]
    exact cellOkB_mono st [c] c hc

theorem wf_cell (st : List HCell) (a : Nat) (c : HCell)
    (hwf : wfStore st = true) (hc : st[a]? = some c) :
    cellOkB st c = true := by
  simp only [wfStore, List.all_eq_true] at hwf
  exact hwf c (List.getElem?_mem hc)

/-- Two dereference functions that agree on dangling-free references read a
dict cell's entries identically. -/
theorem readEntriesAux_congr (rd rd' : HRef → Option JVal)
    (P : HRef → Bool) (h : ∀ r, P r = true → rd r = rd' r) :
    ∀ es : List (String × HRef), (es.all fun kv => P kv.2) = true →
      readEntriesAux rd es = readEntriesAux rd' es
  | [], _ => rfl
  | (k, r) :: t, hall => by
      simp only [List.all_cons, Bool.and_eq_true] at hall
      simp only [readEntriesAux, h r hall.1,
        readEntriesAux_congr rd rd' P h t hall.2]

/-- See `readEntriesAux_congr`. -/
theorem readElemsAux_congr (rd rd' : HRef → Option JVal)
    (P : HRef → Bool) (h : ∀ r, P r = true → rd r = rd' r) :
    ∀ rs : List HRef, rs.all P = true →
      readElemsAux rd rs = readElemsAux rd' rs
  | [], _ => rfl
  | r :: t, hall => by
      simp only [List.all_cons, Bool.and_eq_true] at hall
      simp only [readElemsAux, h r hall.1,
        readElemsAux_congr rd rd' P h t hall.2]

/-- Appending cells to a well-formed store changes no read of an existing
reference. -/
theorem readH_append : ∀ (fuel : Nat) (st ext : List HCell) (r : HRef),
    wfStore st = true → refOkB st r = true →
    readH fuel (st ++ ext) r = readH fuel st r := by
  intro fuel
  induction fuel with
  | zero => intro st ext r _ _; rfl
  | succ f ih =>
      intro st ext r hwf hok
      cases r with
      | imm v => rfl
      | addr a =>
          have ha : a < st.length := by
            simpa [refOkB, decide_eq_true_eq] using hok
          simp only [readH]
          rw [List.getElem?_append_left ha]
          cases hc : st[a]? with
          | none => rfl
          | some c =>
              have hcok := wf_cell st a c hwf hc
              cases c with
              | dictC es =>
                  simp only []
                  rw [readEntriesAux_congr (readH f (st ++ ext)) (readH f st)
                    (refOkB st) (fun r hr => ih st ext r hwf hr) es hcok]
              | listC rs =>
                  simp only []
                  rw [readElemsAux_congr (readH f (st ++ ext)) (readH f st)
                    (refOkB st) (fun r hr => ih st ext r hwf hr) rs hcok]

/-- The per-reference specification of `deepcopyH` at a given budget. -/
def DcRefSpec (fuel : Nat) : Prop :=
  ∀ (st : List HCell) (r : HRef) (st' : List HCell) (r' : HRef),
    wfStore st = true → refOkB st r = true →
    deepcopyH fuel st r = some (st', r') →
    (∃ ext, st' = st ++ ext) ∧ wfStore st' = true ∧
    refOkB st' r' = true ∧
    ∀ t, agreeFresh st st' t → readH fuel t r' = readH fuel st r

/-- The dict-entry-list version of `DcRefSpec`. -/
def DcEntriesSpec (fuel : Nat) : Prop :=
  ∀ (st : List HCell) (es : List (String × HRef)) (st' : List HCell)
    (es' : List (String × HRef)),
    wfStore st = true → entriesOkB st es = true →
    dcEntriesAux (deepcopyH fuel) st es = some (st', es') →
    (∃ ext, st' = st ++ ext) ∧ wfStore st' = true ∧
    entriesOkB st' es' = true ∧
    ∀ t, agreeFresh st st' t →
      readEntriesAux (readH fuel t) es' = readEntriesAux (readH fuel st) es

/-- The list-element version of `DcRefSpec`. -/
def DcElemsSpec (fuel : Nat) : Prop :=
  ∀ (st : List HCell) (rs : List HRef) (st' : List HCell) (rs' : List HRef),
    wfStore st = true → elemsOkB st rs = true →
    dcElemsAux (deepcopyH fuel) st rs = some (st', rs') →
    (∃ ext, st' = st ++ ext) ∧ wfStore st' = true ∧
    elemsOkB st' rs' = true ∧
    ∀ t, agreeFresh st st' t →
      readElemsAux (readH fuel t) rs' = readElemsAux (readH fuel st) rs

theorem dcEntries_spec_of_ref (fuel : Nat) (href : DcRefSpec fuel) :
    DcEntriesSpec fuel := by
  intro st es
  induction es generalizing st with
  | nil =>
      intro st' es' hwf _ h
      simp only [dcEntriesAux, Option.some.injEq, Prod.mk.injEq] at h
      obtain ⟨h1, h2⟩ := h
      subst h1; subst h2
      exact ⟨⟨[], by simp⟩, hwf, rfl, fun t _ => rfl⟩
  | cons hd tl ih =>
      intro st' es' hwf hok h
      obtain ⟨k, r⟩ := hd
      simp only [entriesOkB, List.all_cons, Bool.and_eq_true] at hok
      simp only [dcEntriesAux] at h
      cases hdc : deepcopyH fuel st r with
      | none => rw [hdc] at h; exact absurd h (by simp)
      | some pr =>
          obtain ⟨st1, r'⟩ := pr
          rw [hdc] at h
          simp only at h
          cases hrest : dcEntriesAux (deepcopyH fuel) st1 tl with
          | none => rw [hrest] at h; exact absurd h (by simp)
          | some pr2 =>
              obtain ⟨st2, tl'⟩ := pr2
              rw [hrest] at h
              simp only [Option.some.injEq, Prod.mk.injEq] at h
              obtain ⟨h1, h2⟩ := h
              subst h1; subst h2
              obtain ⟨⟨ext1, hx1⟩, hwf1, hokr', hrd1⟩ :=
                href st r st1 r' hwf hok.1 hdc
              have hoktl1 : entriesOkB st1 tl = true := by
                rw [hx1]; exact entriesOkB_mono st ext1 tl hok.2
              obtain ⟨⟨ext2, hx2⟩, hwf2, hoktl2, hrd2⟩ :=
                ih st1 st2 tl' hwf1 hoktl1 hrest
              have hlen1 : st.length ≤ st1.length := by
                rw [hx1]; simp
              have hlen2 : st1.length ≤ st2.length := by
                rw [hx2]; simp
              refine ⟨⟨ext1 ++ ext2, by rw [hx2, hx1, List.append_assoc]⟩,
                hwf2, ?_, ?_⟩
              · simp only [entriesOkB, List.all_cons, Bool.and_eq_true]
                constructor
                · rw [hx2]; exact refOkB_mono st1 ext2 r' hokr'
                · exact hoktl2
              · intro t ht
                have ht1 : agreeFresh st st1 t := by
                  intro a ha1 ha2
                  have := ht a ha1 (lt_of_lt_of_le ha2 hlen2)
                  rw [this, hx2, List.getElem?_append_left ha2]
                have ht2 : agreeFresh st1 st2 t := fun a ha1 ha2 =>
                  ht a (le_trans hlen1 ha1) ha2
                have hhead := hrd1 t ht1
                have htail := hrd2 t ht2
                have htail2 : readEntriesAux (readH fuel st1) tl =
                    readEntriesAux (readH fuel st) tl := by
                  rw [hx1]
                  exact readEntriesAux_congr _ _ (refOkB st)
                    (fun r hr => readH_append fuel st ext1 r hwf hr) tl hok.2
                simp only [readEntriesAux, hhead, htail, htail2]

theorem dcElems_spec_of_ref (fuel : Nat) (href : DcRefSpec fuel) :
    DcElemsSpec fuel := by
  intro st rs
  induction rs generalizing st with
  | nil =>
      intro st' rs' hwf _ h
      simp only [dcElemsAux, Option.some.injEq, Prod.mk.injEq] at h
      obtain ⟨h1, h2⟩ := h
      subst h1; subst h2
      exact ⟨⟨[], by simp⟩, hwf, rfl, fun t _ => rfl⟩
  | cons r tl ih =>
      intro st' rs' hwf hok h
      simp only [elemsOkB, List.all_cons, Bool.and_eq_true] at hok
      simp only [dcElemsAux] at h
      cases hdc : deepcopyH fuel st r with
      | none => rw [hdc] at h; exact absurd h (by simp)
      | some pr =>
          obtain ⟨st1, r'⟩ := pr
          rw [hdc] at h
          simp only at h
          cases hrest : dcElemsAux (deepcopyH fuel) st1 tl with
          | none => rw [hrest] at h; exact absurd h (by simp)
          | some pr2 =>
              obtain ⟨st2, tl'⟩ := pr2
              rw [hrest] at h
              simp only [Option.some.injEq, Prod.mk.injEq] at h
              obtain ⟨h1, h2⟩ := h
              subst h1; subst h2
              obtain ⟨⟨ext1, hx1⟩, hwf1, hokr', hrd1⟩ :=
                href st r st1 r' hwf hok.1 hdc
              have hoktl1 : elemsOkB st1 tl = true := by
                rw [hx1]; exact elemsOkB_mono st ext1 tl hok.2
              obtain ⟨⟨ext2, hx2⟩, hwf2, hoktl2, hrd2⟩ :=
                ih st1 st2 tl' hwf1 hoktl1 hrest
              have hlen1 : st.length ≤ st1.length := by
                rw [hx1]; simp
              have hlen2 : st1.length ≤ st2.length := by
                rw [hx2]; simp
              refine ⟨⟨ext1 ++ ext2, by rw [hx2, hx1, List.append_assoc]⟩,
                hwf2, ?_, ?_⟩
              · simp only [elemsOkB, List.all_cons, Bool.and_eq_true]
                constructor
                · rw [hx2]; exact refOkB_mono st1 ext2 r' hokr'
                · exact hoktl2
              · intro t ht
                have ht1 : agreeFresh st st1 t := by
                  intro a ha1 ha2
                  have := ht a ha1 (lt_of_lt_of_le ha2 hlen2)
                  rw [this, hx2, List.getElem?_append_left ha2]
                have ht2 : agreeFresh st1 st2 t := fun a ha1 ha2 =>
                  ht a (le_trans hlen1 ha1) ha2
                have hhead := hrd1 t ht1
                have htail := hrd2 t ht2
                have htail2 : readElemsAux (readH fuel st1) tl =
                    readElemsAux (readH fuel st) tl := by
                  rw [hx1]
                  exact readElemsAux_congr _ _ (refOkB st)
                    (fun r hr => readH_append fuel st ext1 r hwf hr) tl hok.2
                simp only [readElemsAux, hhead, htail, htail2]

theorem dc_spec_zero : DcRefSpec 0 := by
  intro st r st' r' _ _ h
  simp [deepcopyH] at h

theorem dc_spec_succ (fuel : Nat) (hE : DcEntriesSpec fuel)
    (hL : DcElemsSpec fuel) : DcRefSpec (fuel + 1) := by
  intro st r st' r' hwf hok h
  cases r with
  | imm v =>
      simp only [deepcopyH, Option.some.injEq, Prod.mk.injEq] at h
      obtain ⟨h1, h2⟩ := h
      subst h1; subst h2
      exact ⟨⟨[], by simp⟩, hwf, rfl, fun t _ => rfl⟩
  | addr a =>
      have ha : a < st.length := by
        simpa [refOkB, decide_eq_true_eq] using hok
      simp only [deepcopyH] at h
      cases hc : st[a]? with
      | none => rw [hc] at h; exact absurd h (by simp)
      | some c =>
          rw [hc] at h
          have hcok := wf_cell st a c hwf hc
          cases c with
          | dictC es =>
              simp only at h
              cases hde : dcEntriesAux (deepcopyH fuel) st es with
              | none => rw [hde] at h; exact absurd h (by simp)
              | some pr =>
                  obtain ⟨st1, es'⟩ := pr
                  rw [hde] at h
                  simp only [Option.some.injEq, Prod.mk.injEq] at h
                  obtain ⟨h1, h2⟩ := h
                  subst h1; subst h2
                  obtain ⟨⟨ext1, hx1⟩, hwf1, hok1, hrd⟩ :=
                    hE st es st1 es' hwf hcok hde
                  have hlen1 : st.length ≤ st1.length := by rw [hx1]; simp
                  refine ⟨⟨ext1 ++ [.dictC es'], by
                      rw [hx1, List.append_assoc]⟩,
                    wfStore_concat st1 _ hwf1 hok1, ?_, ?_⟩
                  · simp [refOkB]
                  · intro t ht
                    have htc : t[st1.length]? = some (.dictC es') := by
                      rw [ht st1.length hlen1 (by simp)]
                      exact List.getElem?_concat_length st1 _
                    have ht1 : agreeFresh st st1 t := by
                      intro a' ha1 ha2
                      have := ht a' ha1
                        (lt_of_lt_of_le ha2 (by simp))
                      rw [this, List.getElem?_append_left ha2]
                    simp only [readH, htc, hc, hrd t ht1]
          | listC rs =>
              simp only at h
              cases hde : dcElemsAux (deepcopyH fuel) st rs with
              | none => rw [hde] at h; exact absurd h (by simp)
              | some pr =>
                  obtain ⟨st1, rs'⟩ := pr
                  rw [hde] at h
                  simp only [Option.some.injEq, Prod.mk.injEq] at h
                  obtain ⟨h1, h2⟩ := h
                  subst h1; subst h2
                  obtain ⟨⟨ext1, hx1⟩, hwf1, hok1, hrd⟩ :=
                    hL st rs st1 rs' hwf hcok hde
                  have hlen1 : st.length ≤ st1.length := by rw [hx1]; simp
                  refine ⟨⟨ext1 ++ [.listC rs'], by
                      rw [hx1, List.append_assoc]⟩,
                    wfStore_concat st1 _ hwf1 hok1, ?_, ?_⟩
                  · simp [refOkB]
                  · intro t ht
                    have htc : t[st1.length]? = some (.listC rs') := by
                      rw [ht st1.length hlen1 (by simp)]
                      exact List.getElem?_concat_length st1 _
                    have ht1 : agreeFresh st st1 t := by
                      intro a' ha1 ha2
                      have := ht a' ha1
                        (lt_of_lt_of_le ha2 (by simp))
                      rw [this, List.getElem?_append_left ha2]
                    simp only [readH, htc, hc, hrd t ht1]

/-- Full specification of the `deepcopy` embedding at every budget. -/
theorem deepcopy_spec : ∀ fuel : Nat, DcRefSpec fuel := by
  intro fuel
  induction fuel with
  | zero => exact dc_spec_zero
  | succ f ih =>
      exact dc_spec_succ f (dcEntries_spec_of_ref f ih) (dcElems_spec_of_ref f ih)

/-- **C8.** `self.attributes = deepcopy(attributes)` is a defensive copy:
take any well-formed heap `st` and the dict reference `r` passed into the
constructor; the constructor stores the copy reference `r'` returned by
`deepcopy` over the grown heap `st'`.  For any later heap `t` that agrees
with `st'` on the freshly allocated range (i.e. obtained from `st'` by
mutating only objects that existed before the copy, at addresses below
`st.length`, and/or allocating past `st'.length`), reading the stored copy
in `t` still yields exactly the value the input dict had at construction
time — mutating the object passed to the constructor after construction
returns cannot change `getRawAttributes()`. -/
theorem C8_deepcopy_defensive (fuel : Nat) (st : List HCell) (r : HRef)
    (st' : List HCell) (r' : HRef) (t : List HCell)
    (hwf : wfStore st = true) (hok : refOkB st r = true)
    (hdc : deepcopyH fuel st r = some (st', r'))
    (hmut : ∀ a, st.length ≤ a → a < st'.length → t[a]? = st'[a]?) :
    readH fuel t r' = readH fuel st r :=
  (deepcopy_spec fuel st r st' r' hwf hok hdc).2.2.2 t hmut

/-- Witness for C8: a one-cell heap holding `{"product": "old"}` is copied
(into address 1); mutating the original cell at address 0 to
`{"product": "MUTATED"}` leaves the copy's value unchanged, while reading
the mutated original shows the write really happened. -/
theorem C8_deepcopy_defensive_witness :
    readH 2 [.dictC [("product", .imm (.str "MUTATED"))],
             .dictC [("product", .imm (.str "old"))]] (.addr 1) =
      readH 2 [.dictC [("product", .imm (.str "old"))]] (.addr 0) ∧
    readH 2 [.dictC [("product", .imm (.str "MUTATED"))],
             .dictC [("product", .imm (.str "old"))]] (.addr 1) =
      some (.obj (.cons "product" (.str "old") .nil)) ∧
    readH 2 [.dictC [("product", .imm (.str "MUTATED"))],
             .dictC [("product", .imm (.str "old"))]] (.addr 0) =
      some (.obj (.cons "product" (.str "MUTATED") .nil)) := by
  refine ⟨?_, rfl, rfl⟩
  exact C8_deepcopy_defensive 2
    [.dictC [("product", .imm (.str "old"))]] (.addr 0)
    [.dictC [("product", .imm (.str "old"))],
     .dictC [("product", .imm (.str "old"))]] (.addr 1)
    [.dictC [("product", .imm (.str "MUTATED"))],
     .dictC [("product", .imm (.str "old"))]]
    (by decide) (by decide) (by rfl)
    (by intro a h1 h2
        simp only [List.length_cons, List.length_nil] at h1 h2
        have : a = 1 := by omega
        subst this
        rfl)

end HardInfo
